import Mathlib

set_option maxHeartbeats 1000000
set_option maxRecDepth 8000

namespace Stego

/-! Shallow embedding of `src/watermark.py` (and its timing-instrumented
duplicate `src/src/watermark.py`) from the steganography-py repository.

The library functions there operate on an OpenCV pixel buffer
(`numpy` array of shape `H × W × 3`, dtype `uint8`), modelled here as
`List (List (List Nat))` with a well-formedness predicate.  File I/O
(`cv2.imread` / `cv2.imwrite`) is out of scope; the embedding starts from
the in-memory buffer, exactly as the spec's §1 prescribes.

The pseudo-random machinery used by `generate_pseudo_random_positions`
(`random.seed` / `random.shuffle`) is CPython's global Mersenne Twister;
it is modelled below bit-for-bit (`_randommodule.c`), with the mutable
global generator threaded through the functions as an explicit
`MTState` value. -/

/-- 32-bit word mask used throughout the Mersenne Twister model. -/
def wordMask : Nat := 0xFFFFFFFF

/-- State of CPython's Mersenne Twister (`_randommodule.c`): the 624-word
`mt` array is packed into one natural number, word `i` occupying bits
`[32*i, 32*i+32)`, together with the current index `mti`. -/
structure MTState where
  mt : Nat
  mti : Nat

/-- Read word `i` of the packed state array. -/
def mtGet (s i : Nat) : Nat := (s >>> (32 * i)) &&& wordMask

/-- Write word `i` of the packed state array: clear the word by xor-ing its
current bits away, then or the new value in. -/
def mtSet (s i v : Nat) : Nat :=
  (s ^^^ (mtGet s i <<< (32 * i))) ||| ((v &&& wordMask) <<< (32 * i))

/-- Loop of CPython `init_genrand`:
`mt[i] = (1812433253 * (mt[i-1] ^ (mt[i-1] >> 30)) + i) & 0xffffffff`. -/
def initGenrandLoop : Nat → Nat → Nat → Nat
  | s, _, 0 => s
  | s, i, k + 1 =>
    let prev := mtGet s (i - 1)
    initGenrandLoop
      (mtSet s i ((1812433253 * (prev ^^^ (prev >>> 30)) + i) &&& wordMask))
      (i + 1) k

/-- CPython `init_genrand`: `mt[0] = s`, then the 623-step recurrence. -/
def initGenrand (seed : Nat) : Nat :=
  initGenrandLoop (seed &&& wordMask) 1 623

/-- First mixing loop of CPython `init_by_array`, specialised to a
single-word key `k0` (the seeds this program produces are `< 2^32`, so
`random_seed` always splits them into exactly one 32-bit word; the key
index `j` therefore stays 0 throughout). -/
def initByArrayLoop1 (k0 : Nat) : Nat → Nat → Nat → Nat × Nat
  | s, i, 0 => (s, i)
  | s, i, k + 1 =>
    let prev := mtGet s (i - 1)
    let v := ((mtGet s i ^^^ (((prev ^^^ (prev >>> 30)) * 1664525) &&& wordMask)) + k0) &&& wordMask
    let s' := mtSet s i v
    if i + 1 ≥ 624 then initByArrayLoop1 k0 (mtSet s' 0 (mtGet s' 623)) 1 k
    else initByArrayLoop1 k0 s' (i + 1) k

/-- Second mixing loop of CPython `init_by_array`; the `- i` is 32-bit
wrapping subtraction, written `+ 2^32 - i` on `Nat`. -/
def initByArrayLoop2 : Nat → Nat → Nat → Nat
  | s, _, 0 => s
  | s, i, k + 1 =>
    let prev := mtGet s (i - 1)
    let v := ((mtGet s i ^^^ (((prev ^^^ (prev >>> 30)) * 1566083941) &&& wordMask))
              + 4294967296 - i) &&& wordMask
    let s' := mtSet s i v
    if i + 1 ≥ 624 then initByArrayLoop2 (mtSet s' 0 (mtGet s' 623)) 1 k
    else initByArrayLoop2 s' (i + 1) k

/-- CPython `random.seed(n)` for an integer `0 ≤ n < 2^32`:
`init_by_array` over the single-word key `[n]` — the first loop hands its
final cursor `i` to the second — then `mt[0] = 0x80000000`, leaving
`mti = N` so the next draw regenerates. -/
def pySeed (n : Nat) : MTState :=
  let s := initGenrand 19650218
  let si := initByArrayLoop1 n s 1 624
  let s := initByArrayLoop2 si.1 si.2 623
  ⟨mtSet s 0 0x80000000, 624⟩

/-- One pass of the state-regeneration loop in `genrand_uint32`.  The C
code runs three segments over the in-place array; sequential in-place
updates with modular indices reproduce them exactly (entries below the
cursor have already been regenerated when they are re-read). -/
def twistLoop : Nat → Nat → Nat → Nat
  | s, _, 0 => s
  | s, kk, r + 1 =>
    let y := (mtGet s kk &&& 0x80000000) ||| (mtGet s ((kk + 1) % 624) &&& 0x7FFFFFFF)
    let v := mtGet s ((kk + 397) % 624) ^^^ (y >>> 1) ^^^ (if y &&& 1 = 1 then 0x9908B0DF else 0)
    twistLoop (mtSet s kk v) (kk + 1) r

/-- CPython `genrand_uint32`: regenerate all 624 words when `mti ≥ 624`,
then read one word and temper it. -/
def genrand32 (g : MTState) : Nat × MTState :=
  let st := if g.mti ≥ 624 then (⟨twistLoop g.mt 0 624, 0⟩ : MTState) else g
  let y := mtGet st.mt st.mti
  let y := y ^^^ (y >>> 11)
  let y := y ^^^ ((y <<< 7) &&& 0x9D2C5680)
  let y := y ^^^ ((y <<< 15) &&& 0xEFC60000)
  let y := y ^^^ (y >>> 18)
  (y, ⟨st.mt, st.mti + 1⟩)

/-- CPython `getrandbits(k)` for `1 ≤ k ≤ 32` (the only range this program
uses): a single 32-bit draw shifted down to `k` bits. -/
def getrandbits (k : Nat) (g : MTState) : Nat × MTState :=
  let (r, g') := genrand32 g
  (r >>> (32 - k), g')

/-- Rejection loop of CPython `Random._randbelow_with_getrandbits`: redraw
while `r ≥ n`.  The Python loop is unbounded; the model carries fuel and
falls back to 0 on a (probability ≈ 2^-64) rejection streak. -/
def randbelowLoop (n k : Nat) : Nat → MTState → Nat × MTState
  | 0, g => (0, g)
  | fuel + 1, g =>
    let (r, g') := getrandbits k g
    if r < n then (r, g') else randbelowLoop n k fuel g'

/-- CPython `Random._randbelow_with_getrandbits(n)` for `n ≥ 1`:
`k = n.bit_length()`, then rejection sampling on `getrandbits(k)`. -/
def randbelow (n : Nat) (g : MTState) : Nat × MTState :=
  randbelowLoop n (Nat.log2 n + 1) 64 g

/-- The simultaneous assignment `x[i], x[j] = x[j], x[i]`: both reads
happen before both writes.  Out-of-range indices (never produced by the
shuffle) leave the list unchanged. -/
def listSwap {α : Type} (l : List α) (i j : Nat) : List α :=
  match l[i]?, l[j]? with
  | some a, some b => (l.set i b).set j a
  | _, _ => l

/-- Loop of CPython `random.shuffle`:
`for i in reversed(range(1, len(x))): j = _randbelow(i+1); swap i j`.
The second argument is the current value of `i`. -/
def shuffleLoop {α : Type} : List α → Nat → MTState → List α × MTState
  | l, 0, g => (l, g)
  | l, i + 1, g =>
    let (j, g') := randbelow (i + 2) g
    shuffleLoop (listSwap l (i + 1) j) i g'

/-- CPython `random.shuffle`, starting at `i = len(x) - 1`. -/
def pyShuffle {α : Type} (l : List α) (g : MTState) : List α × MTState :=
  shuffleLoop l (l.length - 1) g

/-! SHA-256 (`hashlib.sha256(...).hexdigest()` as used by
`compute_border_hash`), implemented from FIPS 180-4 over byte lists. -/

/-- Right rotation of a 32-bit word. -/
def rotr (n x : Nat) : Nat := ((x >>> n) ||| (x <<< (32 - n))) &&& wordMask

/-- The first sixty-four primes, whose fractional roots generate the
SHA-256 constants of FIPS 180-4. -/
def shaPrimes : List Nat :=
  [2, 3, 5, 7, 11, 13, 17, 19, 23, 29, 31, 37, 41, 43, 47, 53,
   59, 61, 67, 71, 73, 79, 83, 89, 97, 101, 103, 107, 109, 113, 127, 131,
   137, 139, 149, 151, 157, 163, 167, 173, 179, 181, 191, 193, 197, 199, 211, 223,
   227, 229, 233, 239, 241, 251, 257, 263, 269, 271, 277, 281, 283, 293, 307, 311]

/-- Binary search for the integer cube root. -/
def cbrtSearch (n : Nat) : Nat → Nat → Nat → Nat
  | lo, _, 0 => lo
  | lo, hi, fuel + 1 =>
    if hi ≤ lo + 1 then lo
    else
      let mid := (lo + hi) / 2
      if mid * mid * mid ≤ n then cbrtSearch n mid hi fuel else cbrtSearch n lo mid fuel

/-- Integer cube root. -/
def cbrt (n : Nat) : Nat := cbrtSearch n 0 (n + 1) (2 * (Nat.log2 (n + 1) + 2))

/-- SHA-256 round constants: the first 32 bits of the fractional parts of
the cube roots of the first 64 primes
(`K[t] = floor(cbrt(p_t) * 2^96) mod 2^32`). -/
def shaK : List Nat := shaPrimes.map (fun p => cbrt (p <<< 96) % 2 ^ 32)

/-- SHA-256 initial hash state: the first 32 bits of the fractional parts
of the square roots of the first 8 primes. -/
def shaH0 : List Nat := (shaPrimes.take 8).map (fun p => Nat.sqrt (p <<< 64) % 2 ^ 32)

/-- SHA-256 padding: a 0x80 byte, zeros up to 56 mod 64, then the bit
length as 8 big-endian bytes. -/
def shaPad (msg : List Nat) : List Nat :=
  msg ++ 0x80 :: List.replicate ((119 - msg.length % 64) % 64) 0
      ++ (List.range 8).map (fun i => ((msg.length * 8) >>> (8 * (7 - i))) &&& 0xFF)

/-- Group bytes into 32-bit big-endian words. -/
def bytesToWords : List Nat → List Nat
  | a :: b :: c :: d :: rest => (((a <<< 24) ||| (b <<< 16) ||| (c <<< 8) ||| d)) :: bytesToWords rest
  | _ => []

/-- Message-schedule sigma functions. -/
def sSig0 (x : Nat) : Nat := rotr 7 x ^^^ rotr 18 x ^^^ (x >>> 3)

/-- Message-schedule sigma functions. -/
def sSig1 (x : Nat) : Nat := rotr 17 x ^^^ rotr 19 x ^^^ (x >>> 10)

/-- Compression sigma functions. -/
def bSig0 (x : Nat) : Nat := rotr 2 x ^^^ rotr 13 x ^^^ rotr 22 x

/-- Compression sigma functions. -/
def bSig1 (x : Nat) : Nat := rotr 6 x ^^^ rotr 11 x ^^^ rotr 25 x

/-- Extend the 16 block words to the 64-entry message schedule. -/
def extendSchedule (w : List Nat) : Nat → List Nat
  | 0 => w
  | k + 1 =>
    let t := w.length
    extendSchedule
      (w ++ [(sSig1 (w.getD (t - 2) 0) + w.getD (t - 7) 0 + sSig0 (w.getD (t - 15) 0)
              + w.getD (t - 16) 0) &&& wordMask]) k

/-- One SHA-256 compression round on the state `[a,b,c,d,e,f,g,h]`. -/
def shaRound (st : List Nat) (kw : Nat × Nat) : List Nat :=
  let a := st.getD 0 0
  let b := st.getD 1 0
  let c := st.getD 2 0
  let d := st.getD 3 0
  let e := st.getD 4 0
  let f := st.getD 5 0
  let g := st.getD 6 0
  let h := st.getD 7 0
  let ch := (e &&& f) ^^^ ((e ^^^ wordMask) &&& g)
  let maj := (a &&& b) ^^^ (a &&& c) ^^^ (b &&& c)
  let t1 := (h + bSig1 e + ch + kw.1 + kw.2) &&& wordMask
  let t2 := (bSig0 a + maj) &&& wordMask
  [(t1 + t2) &&& wordMask, a, b, c, (d + t1) &&& wordMask, e, f, g]

/-- Process one 64-byte block. -/
def shaProcessBlock (hst : List Nat) (block : List Nat) : List Nat :=
  let w := extendSchedule (bytesToWords block) 48
  let st := (shaK.zip w).foldl shaRound hst
  (hst.zip st).map (fun p => (p.1 + p.2) &&& wordMask)

/-- Fold the compression function over the given number of 64-byte blocks. -/
def shaCompress (hst : List Nat) (bytes : List Nat) : Nat → List Nat
  | 0 => hst
  | k + 1 => shaCompress (shaProcessBlock hst (bytes.take 64)) (bytes.drop 64) k

/-- SHA-256 of a byte list, as 32 digest bytes. -/
def sha256 (msg : List Nat) : List Nat :=
  let padded := shaPad msg
  (shaCompress shaH0 padded (padded.length / 64)).flatMap
    (fun w => [(w >>> 24) &&& 0xFF, (w >>> 16) &&& 0xFF, (w >>> 8) &&& 0xFF, w &&& 0xFF])

/-- Lowercase hex rendering of the digest (`hexdigest()`). -/
def sha256Hex (msg : List Nat) : String :=
  String.mk ((sha256 msg).flatMap (fun b => [Nat.digitChar (b >>> 4), Nat.digitChar (b &&& 0xF)]))

/-- Value of one hex digit; characters outside `0-9a-fA-F` (which never
occur in a `hexdigest` output, where Python `int(s, 16)` would raise)
count as 0. -/
def hexVal (c : Char) : Nat :=
  if 48 ≤ c.toNat ∧ c.toNat ≤ 57 then c.toNat - 48
  else if 97 ≤ c.toNat ∧ c.toNat ≤ 102 then c.toNat - 87
  else if 65 ≤ c.toNat ∧ c.toNat ≤ 70 then c.toNat - 55
  else 0

/-- Python `int(s, 16)` on the hex strings this program produces. -/
def parseHexNum (s : String) : Nat := s.toList.foldl (fun a c => a * 16 + hexVal c) 0

/-! The pixel-buffer model and the two library operations of
`src/watermark.py`. -/

/-- Pixel buffer: rows of pixels of channel bytes (OpenCV `H × W × 3`,
channel 0 = blue). -/
abbrev Image := List (List (List Nat))

/-- Channel value at `(y, x, c)`; 0 outside the buffer. -/
def pixelVal (img : Image) (y x c : Nat) : Nat :=
  ((img.getD y []).getD x []).getD c 0

/-- Well-formed `h × w × 3` uint8 buffer, as `cv2.imread` produces. -/
def WellFormed (img : Image) (h w : Nat) : Prop :=
  img.length = h ∧ ∀ y, y < h → (img.getD y []).length = w ∧
    ∀ x, x < w → ((img.getD y []).getD x []).length = 3 ∧ ∀ c, c < 3 → pixelVal img y x c < 256

instance (img : Image) (h w : Nat) : Decidable (WellFormed img h w) := by
  unfold WellFormed; infer_instance

/-- The byte stream hashed by `compute_border_hash`: full top row, full
bottom row, left column sans corners, right column sans corners, each
flattened over channels, concatenated in that order (the numpy slices
`image[0,:,:]`, `image[height-1,:,:]`, `image[1:height-1,0,:]`,
`image[1:height-1,width-1,:]` flattened and concatenated). -/
def borderBytes (img : Image) : List Nat :=
  (img.getD 0 []).flatten
  ++ (img.getD (img.length - 1) []).flatten
  ++ (((img.drop 1).take (img.length - 2)).map (fun row => row.getD 0 [])).flatten
  ++ (((img.drop 1).take (img.length - 2)).map
        (fun row => row.getD ((img.getD 0 []).length - 1) [])).flatten

/-- `compute_border_hash` of `src/watermark.py`: SHA-256 hexdigest of the
border byte stream. -/
def compute_border_hash (img : Image) : String := sha256Hex (borderBytes img)

/-- The row-major interior coordinate list
`[(y, x) for y in range(1, height-1) for x in range(1, width-1)]`. -/
def interiorPixels (height width : Nat) : List (Nat × Nat) :=
  (List.range' 1 (height - 2)).flatMap (fun y => (List.range' 1 (width - 2)).map (fun x => (y, x)))

/-- Message of the `ValueError` raised on insufficient interior capacity. -/
def capacityMsg (numBits : Nat) : String :=
  s!"Image is too small for the message. Need at least {numBits} interior pixels."

/-- `generate_pseudo_random_positions`: derive the 32-bit seed from the
hash, reseed the global generator (discarding its incoming state `_g`),
enumerate the interior row-major, check capacity (raising `ValueError`,
modelled as `Except.error`, with the generator already reseeded), shuffle
in place, and return the first `num_bits` positions. -/
def generate_pseudo_random_positions (hash_value : String) (height width numBits : Nat)
    (_g : MTState) : Except String (List (Nat × Nat)) × MTState :=
  let seed := parseHexNum hash_value % 2 ^ 32
  let g := pySeed seed
  let interior := interiorPixels height width
  if interior.length < numBits then (Except.error (capacityMsg numBits), g)
  else
    let sg := pyShuffle interior g
    (Except.ok (sg.1.take numBits), sg.2)

/-- Message of the `ValueError` raised on an oversized message. -/
def sizeMsg : String := "Message too large - maximum size is 65535 bytes"

/-- `message_length.to_bytes(2, byteorder='big')`. -/
def lengthBytes (n : Nat) : List Nat := [n / 256, n % 256]

/-- MSB-first bits of one byte: `(byte >> (7 - bit_pos)) & 1`. -/
def byteBits (byte : Nat) : List Nat :=
  (List.range 8).map (fun bitPos => (byte >>> (7 - bitPos)) &&& 1)

/-- Write one channel value, the numpy assignment `image[y, x, c] = v`.
Out-of-range coordinates (which never arise: embedding only addresses
interior coordinates of a well-formed buffer, where numpy would otherwise
raise) leave the buffer unchanged, since `List.set` ignores out-of-range
indices and an in-range `set` of the unchanged row/pixel is the
identity. -/
def setChan (img : Image) (y x c v : Nat) : Image :=
  img.set y ((img.getD y []).set x (((img.getD y []).getD x []).set c v))

/-- The two in-place assignments of the embed loop:
`image[y, x, 0] &= 0xFE` then `image[y, x, 0] |= bit`. -/
def writeBit (img : Image) (y x bit : Nat) : Image :=
  let img1 := setChan img y x 0 (pixelVal img y x 0 &&& 0xFE)
  setChan img1 y x 0 (pixelVal img1 y x 0 ||| bit)

/-- The embed write loop over `(positions[k], bit k)` pairs. -/
def writeBits (img : Image) : List ((Nat × Nat) × Nat) → Image
  | [] => img
  | (p, b) :: rest => writeBits (writeBit img p.1 p.2 b) rest

/-- `embed_message` of `src/watermark.py`, at the pixel-buffer level
(`cv2.imread` / `cv2.imwrite` and the output-path handling are out of
scope per the spec).  The in-place mutation of `image` is modelled by
returning the buffer next to the function's return value
(`len(message_bytes) * 8`) or the raised `ValueError`; the global
`random` state is threaded through explicitly. -/
def embed_message (image : Image) (message_bytes : List Nat) (g : MTState) :
    Except String Nat × Image × MTState :=
  let height := image.length
  let width := (image.getD 0 []).length
  let border_hash := compute_border_hash image
  let message_length := message_bytes.length
  if message_length > 65535 then (Except.error sizeMsg, image, g)
  else
    let data_to_hide := lengthBytes message_length ++ message_bytes
    let total_bits := data_to_hide.length * 8
    match generate_pseudo_random_positions border_hash height width total_bits g with
    | (Except.error e, g1) => (Except.error e, image, g1)
    | (Except.ok positions, g1) =>
      (Except.ok (message_bytes.length * 8),
       writeBits image (positions.zip (data_to_hide.flatMap byteBits)), g1)

/-- Result of `extract_message`: the source formats these three outcomes
as strings (the decoded message itself, `"Error: Invalid message length
detected: {n}"`, and `"Error: Could not decode message as UTF-8.  First 32
bytes in hex: {hex}..."`); the model carries the underlying data. -/
inductive ExtractResult where
  | message (bytes : List Nat)
  | invalidLength (n : Nat)
  | decodeError (bytes : List Nat)
deriving DecidableEq

/-- Fold MSB-first bits into a byte: `b = (b << 1) | bit` per bit. -/
def foldBits (bits : List Nat) : Nat := bits.foldl (fun b bit => (b <<< 1) ||| bit) 0

/-- LSB read `image[y, x, 0] & 1` at each position. -/
def readBits (img : Image) (positions : List (Nat × Nat)) : List Nat :=
  positions.map (fun p => pixelVal img p.1 p.2 0 &&& 1)

/-- The decoded 16-bit header: two bytes assembled MSB-first from the 16
header bits, combined by `int.from_bytes(length_bytes, 'big')`. -/
def decodeHeader (lengthBits : List Nat) : Nat :=
  foldBits (lengthBits.take 8) * 256 + foldBits ((lengthBits.drop 8).take 8)

/-- Byte `i` of the extracted payload: 8 bits MSB-first, keeping the
source's (never-false on its call path) bounds guard. -/
def byteFromBits (bits : List Nat) (i : Nat) : Nat :=
  (List.range 8).foldl
    (fun b j => if i * 8 + j < bits.length then (b <<< 1) ||| bits.getD (i * 8 + j) 0 else b) 0

/-- Continuation byte test `0x80 ≤ b < 0xC0`. -/
def isCont (b : Nat) : Bool := decide (0x80 ≤ b ∧ b < 0xC0)

/-- Strict UTF-8 acceptance, equivalent to success of
`bytes.decode('utf-8')`: rejects stray continuation bytes, overlong
forms, surrogates (U+D800–U+DFFF) and code points above U+10FFFF. -/
def isValidUTF8 : List Nat → Bool
  | [] => true
  | b :: rest =>
    if b < 0x80 then isValidUTF8 rest
    else if b < 0xC2 then false
    else if b < 0xE0 then
      match rest with
      | c1 :: r => isCont c1 && isValidUTF8 r
      | [] => false
    else if b = 0xE0 then
      match rest with
      | c1 :: c2 :: r => decide (0xA0 ≤ c1 ∧ c1 < 0xC0) && isCont c2 && isValidUTF8 r
      | _ => false
    else if b = 0xED then
      match rest with
      | c1 :: c2 :: r => decide (0x80 ≤ c1 ∧ c1 < 0xA0) && isCont c2 && isValidUTF8 r
      | _ => false
    else if b < 0xF0 then
      match rest with
      | c1 :: c2 :: r => isCont c1 && isCont c2 && isValidUTF8 r
      | _ => false
    else if b = 0xF0 then
      match rest with
      | c1 :: c2 :: c3 :: r => decide (0x90 ≤ c1 ∧ c1 < 0xC0) && isCont c2 && isCont c3 && isValidUTF8 r
      | _ => false
    else if b < 0xF4 then
      match rest with
      | c1 :: c2 :: c3 :: r => isCont c1 && isCont c2 && isCont c3 && isValidUTF8 r
      | _ => false
    else if b = 0xF4 then
      match rest with
      | c1 :: c2 :: c3 :: r => decide (0x80 ≤ c1 ∧ c1 < 0x90) && isCont c2 && isCont c3 && isValidUTF8 r
      | _ => false
    else false

/-- `extract_message` of `src/watermark.py`, at the pixel-buffer level.
String results are modelled by `ExtractResult`; the `ValueError`s the
position generator raises through it are `Except.error`. -/
def extract_message (image : Image) (g : MTState) :
    Except String ExtractResult × MTState :=
  let height := image.length
  let width := (image.getD 0 []).length
  let border_hash := compute_border_hash image
  match generate_pseudo_random_positions border_hash height width 16 g with
  | (Except.error e, g1) => (Except.error e, g1)
  | (Except.ok positions, g1) =>
    let length_bits := readBits image positions
    let message_length := decodeHeader length_bits
    if message_length > 65535 ∨ message_length ≤ 0 then
      (Except.ok (ExtractResult.invalidLength message_length), g1)
    else
      let total_bits := 16 + message_length * 8
      match generate_pseudo_random_positions border_hash height width total_bits g1 with
      | (Except.error e, g2) => (Except.error e, g2)
      | (Except.ok positions2, g2) =>
        let message_bits := readBits image (positions2.drop 16)
        let message_bytes := (List.range message_length).map (byteFromBits message_bits)
        if isValidUTF8 message_bytes then (Except.ok (ExtractResult.message message_bytes), g2)
        else (Except.ok (ExtractResult.decodeError message_bytes), g2)


/-- `embed_message` of the timing-instrumented duplicate
`src/src/watermark.py`.  Its hashing, position generation and write loop
are byte-identical to the plain variant; it differs by returning
`total_bits` (header plus payload) instead of `len(message_bytes) * 8`.
The wall-clock `TimingInfo` object it also returns measures real time and
is not modelled. -/
def embed_message_timed (image : Image) (message_bytes : List Nat) (g : MTState) :
    Except String Nat × Image × MTState :=
  let height := image.length
  let width := (image.getD 0 []).length
  let border_hash := compute_border_hash image
  let message_length := message_bytes.length
  if message_length > 65535 then (Except.error sizeMsg, image, g)
  else
    let data_to_hide := lengthBytes message_length ++ message_bytes
    let total_bits := data_to_hide.length * 8
    match generate_pseudo_random_positions border_hash height width total_bits g with
    | (Except.error e, g1) => (Except.error e, image, g1)
    | (Except.ok positions, g1) =>
      (Except.ok total_bits,
       writeBits image (positions.zip (data_to_hide.flatMap byteBits)), g1)

/-- `extract_message` of `src/src/watermark.py`: identical to the plain
variant except for additionally returning the (unmodelled) `TimingInfo`. -/
def extract_message_timed (image : Image) (g : MTState) :
    Except String ExtractResult × MTState :=
  let height := image.length
  let width := (image.getD 0 []).length
  let border_hash := compute_border_hash image
  match generate_pseudo_random_positions border_hash height width 16 g with
  | (Except.error e, g1) => (Except.error e, g1)
  | (Except.ok positions, g1) =>
    let length_bits := readBits image positions
    let message_length := decodeHeader length_bits
    if message_length > 65535 ∨ message_length ≤ 0 then
      (Except.ok (ExtractResult.invalidLength message_length), g1)
    else
      let total_bits := 16 + message_length * 8
      match generate_pseudo_random_positions border_hash height width total_bits g1 with
      | (Except.error e, g2) => (Except.error e, g2)
      | (Except.ok positions2, g2) =>
        let message_bits := readBits image (positions2.drop 16)
        let message_bytes := (List.range message_length).map (byteFromBits message_bits)
        if isValidUTF8 message_bytes then (Except.ok (ExtractResult.message message_bytes), g2)
        else (Except.ok (ExtractResult.decodeError message_bytes), g2)

/-- The full shuffled interior permutation determined by a fingerprint and
the image dimensions; every successful call of
`generate_pseudo_random_positions` returns a front segment of it. -/
def shuffledInterior (hash_value : String) (height width : Nat) : List (Nat × Nat) :=
  (pyShuffle (interiorPixels height width) (pySeed (parseHexNum hash_value % 2 ^ 32))).1

/-- The bit sequence a call with message `msg` embeds: 16 header bits then
the payload bits, MSB first. -/
def dataBits (msg : List Nat) : List Nat :=
  (lengthBytes msg.length ++ msg).flatMap byteBits

/-- The header length `extract_message` decodes from a buffer of shape
`h x w`: LSBs at the first 16 generated positions, folded MSB-first into
two bytes. -/
def headerLengthOf (img : Image) (h w : Nat) : Nat :=
  decodeHeader (readBits img ((shuffledInterior (compute_border_hash img) h w).take 16))

/-- A default generator state for concrete runs (the functions under
study reseed before every draw, so its value is immaterial). -/
def gInit : MTState := ⟨0, 624⟩

/-- All-black 10 x 10 test buffer (the spec's concrete scenario). -/
def imgTen : Image := List.replicate 10 (List.replicate 10 (List.replicate 3 0))

/-- All-black 3 x 3 buffer: one interior pixel only. -/
def imgThree : Image := List.replicate 3 (List.replicate 3 (List.replicate 3 0))

/-- All-black 7 x 7 buffer: 25 interior pixels. -/
def imgSeven : Image := List.replicate 7 (List.replicate 7 (List.replicate 3 0))

/-- All-black 5 x 10 buffer: exactly 24 interior pixels, the bit count of
a 1-byte message. -/
def imgFiveTen : Image := List.replicate 5 (List.replicate 10 (List.replicate 3 0))

/-- All-black 727 x 727 buffer: 525625 interior pixels, enough for a
65535-byte message (524296 bits). -/
def imgBig : Image := List.replicate 727 (List.replicate 727 (List.replicate 3 0))

/-! Structural lemmas: Fisher–Yates swapping permutes the list, so the
shuffled interior is a permutation of the row-major interior. -/

/-- Replacing the `k`-th element by `a` while pulling the old value `b` to
the front permutes `a :: t`. -/
theorem perm_cons_set {α : Type} :
    ∀ (t : List α) (k : Nat) (a b : α), t[k]? = some b →
      List.Perm (b :: t.set k a) (a :: t)
  | [], k, _, _, h => by simp at h
  | c :: t', 0, a, b, h => by
    simp only [List.getElem?_cons_zero, Option.some.injEq] at h
    rw [List.set_cons_zero, h]
    exact List.Perm.swap a b t'
  | c :: t', k + 1, a, b, h => by
    simp only [List.getElem?_cons_succ] at h
    have ih := perm_cons_set t' k a b h
    rw [List.set_cons_succ]
    exact (List.Perm.swap c b _).trans ((ih.cons c).trans (List.Perm.swap a c t'))

/-- The double `set` realizing `x[i], x[j] = x[j], x[i]` permutes the
list. -/
theorem set_set_perm {α : Type} :
    ∀ (l : List α) (i j : Nat) (a b : α), l[i]? = some a → l[j]? = some b →
      List.Perm ((l.set i b).set j a) l
  | [], i, _, _, _, hi, _ => by simp at hi
  | c :: t, 0, 0, a, b, hi, hj => by
    simp only [List.getElem?_cons_zero, Option.some.injEq] at hi hj
    rw [List.set_cons_zero, List.set_cons_zero, hi]
  | c :: t, 0, k + 1, a, b, hi, hj => by
    simp only [List.getElem?_cons_zero, List.getElem?_cons_succ, Option.some.injEq] at hi hj
    rw [List.set_cons_zero, List.set_cons_succ, hi]
    exact perm_cons_set t k a b hj
  | c :: t, m + 1, 0, a, b, hi, hj => by
    simp only [List.getElem?_cons_zero, List.getElem?_cons_succ, Option.some.injEq] at hi hj
    rw [List.set_cons_succ, List.set_cons_zero, hj]
    exact perm_cons_set t m b a hi
  | c :: t, m + 1, k + 1, a, b, hi, hj => by
    simp only [List.getElem?_cons_succ] at hi hj
    rw [List.set_cons_succ, List.set_cons_succ]
    exact (set_set_perm t m k a b hi hj).cons c

/-- `listSwap` permutes the list. -/
theorem listSwap_perm {α : Type} (l : List α) (i j : Nat) :
    List.Perm (listSwap l i j) l := by
  unfold listSwap
  cases hi : l[i]? with
  | none => simp [hi]
  | some a =>
    cases hj : l[j]? with
    | none => simp [hi, hj]
    | some b =>
      simp only [hi, hj]
      exact set_set_perm l i j a b hi hj

/-- The shuffle loop permutes the list, whatever the random draws are. -/
theorem shuffleLoop_perm {α : Type} :
    ∀ (l : List α) (i : Nat) (g : MTState), List.Perm (shuffleLoop l i g).1 l
  | l, 0, g => List.Perm.refl l
  | l, i + 1, g => by
    unfold shuffleLoop
    exact (shuffleLoop_perm _ i _).trans (listSwap_perm l (i + 1) _)

/-- `random.shuffle` permutes the list. -/
theorem pyShuffle_perm {α : Type} (l : List α) (g : MTState) :
    List.Perm (pyShuffle l g).1 l :=
  shuffleLoop_perm l (l.length - 1) g

/-! The interior enumeration and the position generator. -/

/-- The interior list has exactly `(h-2)*(w-2)` entries. -/
theorem interiorPixels_length (h w : Nat) :
    (interiorPixels h w).length = (h - 2) * (w - 2) := by
  rw [interiorPixels, List.length_flatMap]
  have hc : List.map (List.length ∘ fun y => (List.range' 1 (w - 2)).map fun x => (y, x))
      (List.range' 1 (h - 2)) = List.map (fun _ => w - 2) (List.range' 1 (h - 2)) :=
    List.map_congr_left (fun y _ => by simp)
  rw [hc, List.map_const', List.sum_replicate, List.length_range', smul_eq_mul]

/-- Interior membership unfolds to the border-excluding bounds. -/
theorem mem_interiorPixels (h w y x : Nat) :
    (y, x) ∈ interiorPixels h w ↔ 1 ≤ y ∧ y < 1 + (h - 2) ∧ 1 ≤ x ∧ x < 1 + (w - 2) := by
  simp only [interiorPixels, List.mem_flatMap, List.mem_map, List.mem_range'_1, Prod.mk.injEq]
  constructor
  · rintro ⟨y', hy', x', hx', rfl, rfl⟩
    omega
  · rintro ⟨h1, h2, h3, h4⟩
    exact ⟨y, by omega, x, by omega, rfl, rfl⟩

/-- The interior list enumerates each coordinate once. -/
theorem interiorPixels_nodup (h w : Nat) : (interiorPixels h w).Nodup := by
  rw [interiorPixels, List.nodup_flatMap]
  refine ⟨fun y _ => ?_, ?_⟩
  · exact (List.nodup_range' 1 (w - 2)).map (fun a b hab => by simpa using hab)
  · refine (List.nodup_range' 1 (h - 2)).imp ?_
    intro a b hab
    intro s hs hs'
    simp only [List.mem_map] at hs hs'
    obtain ⟨x1, _, rfl⟩ := hs
    obtain ⟨x2, _, h2⟩ := hs'
    exact hab (congrArg Prod.fst h2.symm)

/-- The full seeded shuffle is a permutation of the row-major interior. -/
theorem shuffledInterior_perm (f : String) (h w : Nat) :
    List.Perm (shuffledInterior f h w) (interiorPixels h w) :=
  pyShuffle_perm _ _

/-- The shuffled interior keeps all `(h-2)*(w-2)` coordinates. -/
theorem shuffledInterior_length (f : String) (h w : Nat) :
    (shuffledInterior f h w).length = (h - 2) * (w - 2) :=
  (shuffledInterior_perm f h w).length_eq.trans (interiorPixels_length h w)

/-- The shuffled interior has no repeated coordinate. -/
theorem shuffledInterior_nodup (f : String) (h w : Nat) :
    (shuffledInterior f h w).Nodup :=
  ((shuffledInterior_perm f h w).nodup_iff).mpr (interiorPixels_nodup h w)

/-- Every shuffled-interior coordinate is strictly inside the border. -/
theorem mem_shuffledInterior (f : String) (h w y x : Nat)
    (hmem : (y, x) ∈ shuffledInterior f h w) :
    1 ≤ y ∧ y < 1 + (h - 2) ∧ 1 ≤ x ∧ x < 1 + (w - 2) :=
  (mem_interiorPixels h w y x).mp ((shuffledInterior_perm f h w).mem_iff.mp hmem)

/-- With enough interior capacity the generator succeeds and returns the
first `n` entries of the seeded shuffle, whatever the incoming global
generator state is. -/
theorem generate_ok (f : String) (h w n : Nat) (g : MTState)
    (hn : n ≤ (h - 2) * (w - 2)) :
    (generate_pseudo_random_positions f h w n g).1 =
      Except.ok ((shuffledInterior f h w).take n) := by
  unfold generate_pseudo_random_positions shuffledInterior
  rw [if_neg (by rw [interiorPixels_length]; omega)]

/-- With insufficient capacity the generator raises the capacity
`ValueError`, whatever the incoming state is. -/
theorem generate_err (f : String) (h w n : Nat) (g : MTState)
    (hn : (h - 2) * (w - 2) < n) :
    (generate_pseudo_random_positions f h w n g).1 = Except.error (capacityMsg n) := by
  unfold generate_pseudo_random_positions
  rw [if_pos (by rw [interiorPixels_length]; omega)]

/-! Pixel-write lemmas: `setChan`, `writeBit` and the write loop touch
exactly the addressed cell. -/

/-- `setChan` preserves the number of rows. -/
theorem setChan_length (img : Image) (y x c v : Nat) :
    (setChan img y x c v).length = img.length := by
  simp [setChan, List.length_set]

/-- `setChan` leaves other rows untouched. -/
theorem setChan_row_ne (img : Image) (y x c v y' : Nat) (hne : y' ≠ y) :
    (setChan img y x c v)[y']? = img[y']? := by
  unfold setChan
  exact List.getElem?_set_ne (fun h => hne h.symm)

/-- `getD` after `set` at a different index. -/
theorem getD_set_ne {α : Type} (l : List α) (i j : Nat) (a d : α) (h : j ≠ i) :
    (l.set i a).getD j d = l.getD j d := by
  rw [List.getD_eq_getElem?_getD, List.getElem?_set_ne (Ne.symm h), ← List.getD_eq_getElem?_getD]

/-- `getD` after `set` at the same in-range index. -/
theorem getD_set_self {α : Type} (l : List α) (i : Nat) (a d : α) (h : i < l.length) :
    (l.set i a).getD i d = a := by
  rw [List.getD_eq_getElem?_getD, List.getElem?_set_self', List.getElem?_eq_getElem h]
  simp only [Option.map_some, Function.const_apply, Option.getD_some]

/-- `getD` after an out-of-range `set` (which is the identity). -/
theorem getD_set_oob {α : Type} (l : List α) (i : Nat) (a d : α) (h : ¬ i < l.length) :
    (l.set i a).getD i d = l.getD i d := by
  rw [List.getD_eq_getElem?_getD, List.getElem?_set_self', List.getD_eq_getElem?_getD,
    List.getElem?_eq_none (by omega)]
  rfl

/-- The row map of the numpy assignment: row `y` gets the rewritten pixel
(when it exists), every other row stays. -/
theorem setChan_row (img : Image) (y x c v y' : Nat) :
    (setChan img y x c v).getD y' [] =
      if y' = y ∧ y < img.length
      then (img.getD y []).set x (((img.getD y []).getD x []).set c v)
      else img.getD y' [] := by
  unfold setChan
  by_cases h1 : y' = y
  · subst h1
    by_cases h2 : y' < img.length
    · rw [if_pos ⟨rfl, h2⟩]
      exact getD_set_self img y' _ [] h2
    · rw [if_neg (by tauto)]
      exact getD_set_oob img y' _ [] h2
  · rw [if_neg (by tauto)]
    exact getD_set_ne img y y' _ [] h1

/-- `setChan` preserves every row length. -/
theorem setChan_rowlen (img : Image) (y x c v y' : Nat) :
    ((setChan img y x c v).getD y' []).length = (img.getD y' []).length := by
  rw [setChan_row]
  by_cases h : y' = y ∧ y < img.length
  · rw [if_pos h, List.length_set, h.1]
  · rw [if_neg h]

/-- `setChan` leaves the pixel lists of other columns untouched, in every
row. -/
theorem setChan_px_ne (img : Image) (y x c v y' x' : Nat) (hne : x' ≠ x) :
    ((setChan img y x c v).getD y' []).getD x' [] = (img.getD y' []).getD x' [] := by
  rw [setChan_row]
  by_cases h : y' = y ∧ y < img.length
  · rw [if_pos h, getD_set_ne _ x x' _ [] hne, h.1]
  · rw [if_neg h]

/-- `setChan` preserves every pixel's channel count. -/
theorem setChan_pxlen (img : Image) (y x c v y' x' : Nat) :
    (((setChan img y x c v).getD y' []).getD x' []).length
      = ((img.getD y' []).getD x' []).length := by
  rw [setChan_row]
  by_cases h : y' = y ∧ y < img.length
  · rw [if_pos h]
    by_cases hxx : x' = x
    · subst hxx
      by_cases hxl : x' < (img.getD y []).length
      · rw [getD_set_self _ x' _ [] hxl, List.length_set, h.1]
      · rw [getD_set_oob _ x' _ [] hxl, h.1]
    · rw [getD_set_ne _ x x' _ [] hxx, h.1]
  · rw [if_neg h]

/-- `setChan` leaves every differing coordinate unchanged. -/
theorem pixelVal_setChan_ne (img : Image) (y x c v y' x' c' : Nat)
    (hne : y' ≠ y ∨ x' ≠ x ∨ c' ≠ c) :
    pixelVal (setChan img y x c v) y' x' c' = pixelVal img y' x' c' := by
  unfold pixelVal
  rw [setChan_row]
  by_cases h : y' = y ∧ y < img.length
  · rw [if_pos h]
    rcases hne with hyy | hxx | hcc
    · exact absurd h.1 hyy
    · rw [getD_set_ne _ x x' _ [] hxx, h.1]
    · by_cases hxx : x' = x
      · subst hxx
        by_cases hxl : x' < (img.getD y []).length
        · rw [getD_set_self _ x' _ [] hxl, getD_set_ne _ c c' _ 0 hcc, h.1]
        · rw [getD_set_oob _ x' _ [] hxl, h.1]
      · rw [getD_set_ne _ x x' _ [] hxx, h.1]
  · rw [if_neg h]

/-- `setChan` writes the addressed in-bounds cell. -/
theorem pixelVal_setChan_self (img : Image) (y x c v : Nat)
    (hy : y < img.length) (hx : x < (img.getD y []).length)
    (hc : c < ((img.getD y []).getD x []).length) :
    pixelVal (setChan img y x c v) y x c = v := by
  unfold pixelVal
  rw [setChan_row, if_pos ⟨rfl, hy⟩, getD_set_self _ x _ [] hx, getD_set_self _ c _ 0 hc]

/-- `writeBit` preserves the number of rows. -/
theorem writeBit_length (img : Image) (y x b : Nat) :
    (writeBit img y x b).length = img.length := by
  unfold writeBit
  rw [setChan_length, setChan_length]

/-- `writeBit` leaves other rows untouched. -/
theorem writeBit_row_ne (img : Image) (y x b y' : Nat) (hne : y' ≠ y) :
    (writeBit img y x b)[y']? = img[y']? := by
  unfold writeBit
  rw [setChan_row_ne _ _ _ _ _ _ hne, setChan_row_ne _ _ _ _ _ _ hne]

/-- `writeBit` preserves every row length. -/
theorem writeBit_rowlen (img : Image) (y x b y' : Nat) :
    ((writeBit img y x b).getD y' []).length = (img.getD y' []).length := by
  unfold writeBit
  rw [setChan_rowlen, setChan_rowlen]

/-- `writeBit` leaves the pixel lists of other columns untouched. -/
theorem writeBit_px_ne (img : Image) (y x b y' x' : Nat) (hne : x' ≠ x) :
    ((writeBit img y x b).getD y' []).getD x' [] = (img.getD y' []).getD x' [] := by
  unfold writeBit
  rw [setChan_px_ne _ _ _ _ _ _ _ hne, setChan_px_ne _ _ _ _ _ _ _ hne]

/-- `writeBit` preserves every pixel's channel count. -/
theorem writeBit_pxlen (img : Image) (y x b y' x' : Nat) :
    (((writeBit img y x b).getD y' []).getD x' []).length
      = ((img.getD y' []).getD x' []).length := by
  unfold writeBit
  rw [setChan_pxlen, setChan_pxlen]

/-- `writeBit` leaves every differing coordinate unchanged. -/
theorem pixelVal_writeBit_ne (img : Image) (y x b y' x' c' : Nat)
    (hne : y' ≠ y ∨ x' ≠ x ∨ c' ≠ 0) :
    pixelVal (writeBit img y x b) y' x' c' = pixelVal img y' x' c' := by
  unfold writeBit
  rw [pixelVal_setChan_ne _ _ _ _ _ _ _ _ hne, pixelVal_setChan_ne _ _ _ _ _ _ _ _ hne]

/-- At an in-bounds cell, `writeBit` clears the LSB and ors the bit in. -/
theorem pixelVal_writeBit_self (img : Image) (y x b : Nat)
    (hy : y < img.length) (hx : x < (img.getD y []).length)
    (hc : 0 < ((img.getD y []).getD x []).length) :
    pixelVal (writeBit img y x b) y x 0 = (pixelVal img y x 0 &&& 0xFE) ||| b := by
  unfold writeBit
  rw [pixelVal_setChan_self _ y x 0 _
      (by rw [setChan_length]; exact hy)
      (by rw [setChan_rowlen]; exact hx)
      (by rw [setChan_pxlen]; exact hc),
    pixelVal_setChan_self img y x 0 _ hy hx hc]

/-- The write loop preserves the number of rows. -/
theorem writeBits_length (l : List ((Nat × Nat) × Nat)) :
    ∀ img : Image, (writeBits img l).length = img.length := by
  induction l with
  | nil => intro img; rfl
  | cons pb rest ih =>
    intro img
    obtain ⟨p, b⟩ := pb
    rw [writeBits, ih, writeBit_length]

/-- The write loop preserves every row length. -/
theorem writeBits_rowlen (l : List ((Nat × Nat) × Nat)) :
    ∀ (img : Image) (y' : Nat),
      ((writeBits img l).getD y' []).length = (img.getD y' []).length := by
  induction l with
  | nil => intro img y'; rfl
  | cons pb rest ih =>
    intro img y'
    obtain ⟨p, b⟩ := pb
    rw [writeBits, ih, writeBit_rowlen]

/-- The write loop preserves every pixel's channel count. -/
theorem writeBits_pxlen (l : List ((Nat × Nat) × Nat)) :
    ∀ (img : Image) (y' x' : Nat),
      (((writeBits img l).getD y' []).getD x' []).length
        = ((img.getD y' []).getD x' []).length := by
  induction l with
  | nil => intro img y' x'; rfl
  | cons pb rest ih =>
    intro img y' x'
    obtain ⟨p, b⟩ := pb
    rw [writeBits, ih, writeBit_pxlen]

/-- Rows whose index is hit by no write position survive whole. -/
theorem writeBits_row_ne (l : List ((Nat × Nat) × Nat)) :
    ∀ (img : Image) (y' : Nat), (∀ pb ∈ l, pb.1.1 ≠ y') →
      (writeBits img l)[y']? = img[y']? := by
  induction l with
  | nil => intro img y' _; rfl
  | cons pb rest ih =>
    intro img y' hl
    obtain ⟨p, b⟩ := pb
    rw [writeBits, ih _ _ (fun q hq => hl q (List.mem_cons_of_mem _ hq)),
      writeBit_row_ne _ _ _ _ _ (fun h => hl (p, b) (List.mem_cons_self (p, b) rest) h.symm)]

/-- Pixel lists in columns hit by no write position survive whole. -/
theorem writeBits_px_ne (l : List ((Nat × Nat) × Nat)) :
    ∀ (img : Image) (y' x' : Nat), (∀ pb ∈ l, pb.1.2 ≠ x') →
      ((writeBits img l).getD y' []).getD x' [] = (img.getD y' []).getD x' [] := by
  induction l with
  | nil => intro img y' x' _; rfl
  | cons pb rest ih =>
    intro img y' x' hl
    obtain ⟨p, b⟩ := pb
    rw [writeBits, ih _ _ _ (fun q hq => hl q (List.mem_cons_of_mem _ hq)),
      writeBit_px_ne _ _ _ _ _ _ (fun h => hl (p, b) (List.mem_cons_self (p, b) rest) h.symm)]

/-- Cells at coordinates hit by no write position keep their value. -/
theorem pixelVal_writeBits_notmem (l : List ((Nat × Nat) × Nat)) :
    ∀ (img : Image) (y x c : Nat), (∀ pb ∈ l, pb.1 ≠ (y, x)) →
      pixelVal (writeBits img l) y x c = pixelVal img y x c := by
  induction l with
  | nil => intro img y x c _; rfl
  | cons pb rest ih =>
    intro img y x c hl
    obtain ⟨p, b⟩ := pb
    have hp : p ≠ (y, x) := hl (p, b) (List.mem_cons_self (p, b) rest)
    have hne : y ≠ p.1 ∨ x ≠ p.2 ∨ c ≠ 0 := by
      by_cases h1 : y = p.1
      · by_cases h2 : x = p.2
        · exact absurd (Prod.ext h1.symm h2.symm) hp
        · exact Or.inr (Or.inl h2)
      · exact Or.inl h1
    rw [writeBits, ih _ _ _ _ (fun q hq => hl q (List.mem_cons_of_mem _ hq)),
      pixelVal_writeBit_ne _ _ _ _ _ _ _ hne]

/-- Channels other than 0 are never written. -/
theorem pixelVal_writeBits_chan (l : List ((Nat × Nat) × Nat)) :
    ∀ (img : Image) (y x c : Nat), c ≠ 0 →
      pixelVal (writeBits img l) y x c = pixelVal img y x c := by
  induction l with
  | nil => intro img y x c _; rfl
  | cons pb rest ih =>
    intro img y x c hc
    obtain ⟨p, b⟩ := pb
    rw [writeBits, ih _ _ _ _ hc,
      pixelVal_writeBit_ne _ _ _ _ _ _ _ (Or.inr (Or.inr hc))]

/-- After the write loop, the cell of position `k` holds its own bit over
its old upper bits, provided the positions are pairwise distinct and in
bounds. -/
theorem pixelVal_writeBits_at (l : List ((Nat × Nat) × Nat)) :
    ∀ (img : Image) (k : Nat) (p : Nat × Nat) (b : Nat),
      l[k]? = some (p, b) →
      (List.map (fun pb => pb.1) l).Nodup →
      (∀ pb ∈ l, pb.1.1 < img.length ∧ pb.1.2 < (img.getD pb.1.1 []).length ∧
        0 < ((img.getD pb.1.1 []).getD pb.1.2 []).length) →
      pixelVal (writeBits img l) p.1 p.2 0 = (pixelVal img p.1 p.2 0 &&& 0xFE) ||| b := by
  induction l with
  | nil => intro img k p b hk _ _; simp at hk
  | cons pb rest ih =>
    intro img k p b hk hnd hbounds
    obtain ⟨q, b0⟩ := pb
    rw [List.map_cons, List.nodup_cons] at hnd
    cases k with
    | zero =>
      simp only [List.getElem?_cons_zero, Option.some.injEq] at hk
      obtain ⟨rfl, rfl⟩ : p = q ∧ b = b0 :=
        ⟨(congrArg Prod.fst hk).symm, (congrArg Prod.snd hk).symm⟩
      rw [writeBits,
        pixelVal_writeBits_notmem rest _ _ _ _ (fun pb2 h2 hpe =>
          hnd.1 (List.mem_map.mpr ⟨pb2, h2, by rw [hpe]⟩))]
      obtain ⟨h1, h2, h3⟩ := hbounds (p, b) (List.mem_cons_self (p, b) rest)
      exact pixelVal_writeBit_self img p.1 p.2 b h1 h2 h3
    | succ k' =>
      simp only [List.getElem?_cons_succ] at hk
      have hmem : (p, b) ∈ rest := List.getElem?_mem hk
      have hq_ne : q ≠ p := fun h =>
        hnd.1 (by rw [h]; exact List.mem_map.mpr ⟨(p, b), hmem, rfl⟩)
      have hcoord : p.1 ≠ q.1 ∨ p.2 ≠ q.2 ∨ (0 : Nat) ≠ 0 := by
        by_cases h1 : p.1 = q.1
        · by_cases h2 : p.2 = q.2
          · exact absurd (Prod.ext h1.symm h2.symm) hq_ne
          · exact Or.inr (Or.inl h2)
        · exact Or.inl h1
      rw [writeBits,
        ih (writeBit img q.1 q.2 b0) k' p b hk hnd.2 (fun pb2 h2 => by
          obtain ⟨g1, g2, g3⟩ := hbounds pb2 (List.mem_cons_of_mem _ h2)
          refine ⟨by rw [writeBit_length]; exact g1, ?_, ?_⟩
          · rw [writeBit_rowlen]; exact g2
          · rw [writeBit_pxlen]; exact g3),
        pixelVal_writeBit_ne _ _ _ _ _ _ _ hcoord]

/-! Border invariance: interior writes never touch the hashed border
byte stream. -/

/-- Fixed-column pixel extraction commutes with the write loop when no
write lands in that column. -/
theorem writeBits_col (l : List ((Nat × Nat) × Nat)) (img : Image) (x0 : Nat)
    (hx : ∀ pb ∈ l, pb.1.2 ≠ x0) (y : Nat) :
    (writeBits img l)[y]?.map (fun row => row.getD x0 [])
      = img[y]?.map (fun row => row.getD x0 []) := by
  have hAlen : (writeBits img l).length = img.length := writeBits_length l img
  by_cases hy : y < img.length
  · rw [List.getElem?_eq_getElem (show y < (writeBits img l).length by omega),
      List.getElem?_eq_getElem hy]
    simp only [Option.map_some', Option.some.injEq]
    rw [show (writeBits img l)[y] = (writeBits img l).getD y [] from by
        rw [List.getD_eq_getElem?_getD,
          List.getElem?_eq_getElem (show y < (writeBits img l).length by omega)]
        rfl,
      show img[y] = img.getD y [] from by
        rw [List.getD_eq_getElem?_getD, List.getElem?_eq_getElem hy]
        rfl]
    exact writeBits_px_ne l img y x0 hx
  · rw [List.getElem?_eq_none (by omega), List.getElem?_eq_none (by omega)]

/-- The write loop leaves the border byte stream untouched when every
write position is strictly interior. -/
theorem borderBytes_writeBits (img : Image) (l : List ((Nat × Nat) × Nat))
    (hpos : ∀ pb ∈ l, 1 ≤ pb.1.1 ∧ pb.1.1 < img.length - 1 ∧
      1 ≤ pb.1.2 ∧ pb.1.2 < (img.getD 0 []).length - 1) :
    borderBytes (writeBits img l) = borderBytes img := by
  have hAlen : (writeBits img l).length = img.length := writeBits_length l img
  have hrow0 : (writeBits img l).getD 0 [] = img.getD 0 [] := by
    rw [List.getD_eq_getElem?_getD,
      writeBits_row_ne l img 0 (fun pb hm => by have := hpos pb hm; omega),
      ← List.getD_eq_getElem?_getD]
  have hrowlast : (writeBits img l).getD (img.length - 1) []
      = img.getD (img.length - 1) [] := by
    rw [List.getD_eq_getElem?_getD,
      writeBits_row_ne l img (img.length - 1) (fun pb hm => by have := hpos pb hm; omega),
      ← List.getD_eq_getElem?_getD]
  have hcol : ∀ x0 : Nat, (∀ pb ∈ l, pb.1.2 ≠ x0) →
      (((writeBits img l).drop 1).take (img.length - 2)).map
          (fun row => row.getD x0 [])
        = ((img.drop 1).take (img.length - 2)).map (fun row => row.getD x0 []) := by
    intro x0 hx0
    apply List.ext_getElem?
    intro n
    rw [List.getElem?_map, List.getElem?_map, List.getElem?_take, List.getElem?_take]
    by_cases hn : n < img.length - 2
    · rw [if_pos hn, if_pos hn, List.getElem?_drop, List.getElem?_drop]
      exact writeBits_col l img x0 hx0 (1 + n)
    · rw [if_neg hn, if_neg hn]
  unfold borderBytes
  rw [hAlen, hrow0, hrowlast,
    hcol 0 (fun pb hm => by have := hpos pb hm; omega),
    hcol ((img.getD 0 []).length - 1) (fun pb hm => by have := hpos pb hm; omega)]

/-- The border fingerprint is unchanged by interior writes. -/
theorem compute_border_hash_writeBits (img : Image) (l : List ((Nat × Nat) × Nat))
    (hpos : ∀ pb ∈ l, 1 ≤ pb.1.1 ∧ pb.1.1 < img.length - 1 ∧
      1 ≤ pb.1.2 ∧ pb.1.2 < (img.getD 0 []).length - 1) :
    compute_border_hash (writeBits img l) = compute_border_hash img :=
  congrArg sha256Hex (borderBytes_writeBits img l hpos)

/-! Bit-codec lemmas: MSB-first encode/decode of bytes round-trips. -/

/-- Each emitted bit is 0 or 1. -/
theorem byteBits_lt_two (byte : Nat) : ∀ b ∈ byteBits byte, b < 2 := by
  intro b hb
  simp only [byteBits, List.mem_map] at hb
  obtain ⟨j, _, rfl⟩ := hb
  have := Nat.and_one_is_mod (byte >>> (7 - j))
  omega

/-- A byte emits exactly 8 bits. -/
theorem byteBits_length (byte : Nat) : (byteBits byte).length = 8 := by
  simp [byteBits]

/-- Folding a byte's MSB-first bits restores the byte. -/
theorem foldBits_byteBits : ∀ byte : Nat, byte < 256 → foldBits (byteBits byte) = byte := by
  decide

/-- Reading the LSB after an LSB write returns the written bit. -/
theorem lsb_read : ∀ a, a < 256 → ∀ b, b < 2 → ((a &&& 0xFE) ||| b) &&& 1 = b := by
  decide

/-- The upper seven bits survive an LSB write. -/
theorem lsb_write_upper : ∀ a, a < 256 → ∀ b, b < 2 → ((a &&& 0xFE) ||| b) >>> 1 = a >>> 1 := by
  decide

/-- LSB writes stay in byte range. -/
theorem lsb_write_lt : ∀ a, a < 256 → ∀ b, b < 2 → ((a &&& 0xFE) ||| b) < 256 := by
  decide

/-- Fold congruence over an index range. -/
theorem foldl_range_congr (f f' : Nat → Nat → Nat) :
    ∀ (n : Nat) (z : Nat), (∀ b j, j < n → f b j = f' b j) →
      (List.range n).foldl f z = (List.range n).foldl f' z := by
  intro n
  induction n with
  | zero => intro z _; rfl
  | succ m ih =>
    intro z h
    rw [List.range_succ, List.foldl_append, List.foldl_append,
      ih z (fun b j hj => h b j (by omega))]
    simp only [List.foldl_cons, List.foldl_nil]
    rw [h _ m (by omega)]

/-- A fold over indices reading `getD` is a fold over the list. -/
theorem foldl_range_getD (g : Nat → Nat → Nat) :
    ∀ (bl : List Nat) (z : Nat),
      (List.range bl.length).foldl (fun b j => g b (bl.getD j 0)) z = bl.foldl g z := by
  intro bl
  induction bl with
  | nil => intro z; rfl
  | cons c t ih =>
    intro z
    rw [List.length_cons, List.range_succ_eq_map, List.foldl_cons, List.foldl_map]
    simp only [List.getD_cons_zero, List.getD_cons_succ]
    exact ih (g z c)

/-- `byteFromBits` on the first 8-bit block folds that block. -/
theorem byteFromBits_block0 (bl rest : List Nat) (hlen : bl.length = 8) :
    byteFromBits (bl ++ rest) 0 = foldBits bl := by
  unfold byteFromBits foldBits
  rw [foldl_range_congr _ (fun b j => (b <<< 1) ||| bl.getD j 0) 8 0 ?hcongr]
  case hcongr =>
    intro b j hj
    simp only [Nat.zero_mul, Nat.zero_add]
    rw [if_pos (by simp only [List.length_append, hlen]; omega),
      List.getD_append bl rest 0 j (by omega)]
  have := foldl_range_getD (fun b bit => (b <<< 1) ||| bit) bl 0
  rw [hlen] at this
  exact this

/-- `byteFromBits` skips a leading 8-bit block by decrementing the index. -/
theorem byteFromBits_shift (bl rest : List Nat) (hlen : bl.length = 8) (i : Nat) :
    byteFromBits (bl ++ rest) (i + 1) = byteFromBits rest i := by
  unfold byteFromBits
  apply foldl_range_congr
  intro b j hj
  have hidx : (i + 1) * 8 + j = bl.length + (i * 8 + j) := by omega
  by_cases hg : i * 8 + j < rest.length
  · rw [if_pos (by simp only [List.length_append]; omega),
      if_pos hg, hidx, List.getD_append_right bl rest 0 _ (by omega)]
    congr 2
    omega
  · rw [if_neg (by simp only [List.length_append]; omega), if_neg hg]

/-- Payload byte `i` recovered from the concatenated bit blocks. -/
theorem byteFromBits_flatMap :
    ∀ (msg : List Nat) (i : Nat), i < msg.length →
      byteFromBits (msg.flatMap byteBits) i = foldBits (byteBits (msg.getD i 0)) := by
  intro msg
  induction msg with
  | nil => intro i hi; simp at hi
  | cons m t ih =>
    intro i hi
    rw [List.flatMap_cons]
    cases i with
    | zero =>
      rw [byteFromBits_block0 _ _ (byteBits_length m), List.getD_cons_zero]
    | succ i' =>
      rw [byteFromBits_shift _ _ (byteBits_length m), List.getD_cons_succ]
      exact ih i' (by simpa using Nat.lt_of_succ_lt_succ hi)

/-- Bound on an MSB-first fold of 0/1 bits. -/
theorem foldBits_go_lt :
    ∀ (bits : List Nat), (∀ b ∈ bits, b < 2) → ∀ z k, z < 2 ^ k →
      bits.foldl (fun b bit => (b <<< 1) ||| bit) z < 2 ^ (k + bits.length) := by
  intro bits
  induction bits with
  | nil => intro _ z k hz; simpa using hz
  | cons c t ih =>
    intro hb z k hz
    rw [List.foldl_cons]
    have hc : c < 2 := hb c (List.mem_cons_self c t)
    have h1 : (z <<< 1) ||| c < 2 ^ (k + 1) := by
      apply Nat.or_lt_two_pow
      · rw [Nat.shiftLeft_eq, Nat.pow_succ]
        omega
      · have : (1 : Nat) ≤ 2 ^ k := Nat.one_le_two_pow
        calc c < 2 := hc
          _ ≤ 2 ^ (k + 1) := by
            rw [Nat.pow_succ]
            omega
    have := ih (fun b hbm => hb b (List.mem_cons_of_mem _ hbm)) ((z <<< 1) ||| c) (k + 1) h1
    calc List.foldl (fun b bit => (b <<< 1) ||| bit) ((z <<< 1) ||| c) t
        < 2 ^ (k + 1 + t.length) := this
      _ = 2 ^ (k + (c :: t).length) := by rw [List.length_cons]; ring_nf

/-- An MSB-first fold of `n` 0/1 bits is below `2^n`. -/
theorem foldBits_lt (bits : List Nat) (h : ∀ b ∈ bits, b < 2) :
    foldBits bits < 2 ^ bits.length := by
  have := foldBits_go_lt bits h 0 0 (by omega)
  simpa using this

/-- The decoded header is at most 65535, whatever bits come in (they are
LSB reads, hence 0/1). -/
theorem decodeHeader_le (bits : List Nat) (h : ∀ b ∈ bits, b < 2) :
    decodeHeader bits ≤ 65535 := by
  unfold decodeHeader
  have h1 : foldBits (bits.take 8) < 2 ^ (bits.take 8).length :=
    foldBits_lt _ (fun b hb => h b (List.take_subset 8 bits hb))
  have h2 : foldBits ((bits.drop 8).take 8) < 2 ^ ((bits.drop 8).take 8).length :=
    foldBits_lt _ (fun b hb => h b (List.drop_subset 8 bits (List.take_subset 8 _ hb)))
  have l1 : (bits.take 8).length ≤ 8 := by simp [List.length_take]
  have l2 : ((bits.drop 8).take 8).length ≤ 8 := by simp [List.length_take]
  have e1 : (2 : Nat) ^ (bits.take 8).length ≤ 2 ^ 8 := Nat.pow_le_pow_right (by omega) l1
  have e2 : (2 : Nat) ^ ((bits.drop 8).take 8).length ≤ 2 ^ 8 := Nat.pow_le_pow_right (by omega) l2
  have : foldBits (bits.take 8) ≤ 255 := by omega
  have : foldBits ((bits.drop 8).take 8) ≤ 255 := by omega
  omega

/-- Decoding the header written for payload length `L < 65536` restores
`L`. -/
theorem decodeHeader_encode (L : Nat) (hL : L < 65536) (rest : List Nat) :
    decodeHeader (byteBits (L / 256) ++ (byteBits (L % 256) ++ rest)) = L := by
  unfold decodeHeader
  rw [List.take_left' (byteBits_length _),
    List.drop_left' (byteBits_length _),
    List.take_left' (byteBits_length _),
    foldBits_byteBits (L / 256) (by omega),
    foldBits_byteBits (L % 256) (by omega)]
  omega

/-! Pair-level characterizations of the generator and of a successful
embed. -/

/-- Exact result (value and final generator state) of a successful
generator call. -/
theorem generate_eq_ok (f : String) (h w n : Nat) (g : MTState)
    (hn : n ≤ (h - 2) * (w - 2)) :
    generate_pseudo_random_positions f h w n g =
      (Except.ok ((shuffledInterior f h w).take n),
       (pyShuffle (interiorPixels h w) (pySeed (parseHexNum f % 2 ^ 32))).2) := by
  unfold generate_pseudo_random_positions shuffledInterior
  rw [if_neg (by rw [interiorPixels_length]; omega)]

/-- Exact result of a failing generator call: the capacity `ValueError`,
with the global generator left freshly seeded. -/
theorem generate_eq_err (f : String) (h w n : Nat) (g : MTState)
    (hn : (h - 2) * (w - 2) < n) :
    generate_pseudo_random_positions f h w n g =
      (Except.error (capacityMsg n), pySeed (parseHexNum f % 2 ^ 32)) := by
  unfold generate_pseudo_random_positions
  rw [if_pos (by rw [interiorPixels_length]; omega)]

/-- Eight bits per data byte. -/
theorem flatMap_byteBits_length (l : List Nat) :
    (l.flatMap byteBits).length = 8 * l.length := by
  induction l with
  | nil => rfl
  | cons m t ih =>
    rw [List.flatMap_cons, List.length_append, byteBits_length, ih, List.length_cons]
    ring

/-- The embedded bit stream has `16 + 8L` bits. -/
theorem dataBits_length (msg : List Nat) :
    (dataBits msg).length = 16 + 8 * msg.length := by
  rw [dataBits, flatMap_byteBits_length, List.length_append]
  simp only [lengthBytes, List.length_cons, List.length_nil]
  omega

/-- Every embedded bit is 0 or 1. -/
theorem dataBits_lt_two (msg : List Nat) : ∀ b ∈ dataBits msg, b < 2 := by
  intro b hb
  rw [dataBits, List.mem_flatMap] at hb
  obtain ⟨byte, _, hb2⟩ := hb
  exact byteBits_lt_two byte b hb2

/-- The header-then-payload decomposition of the embedded bits. -/
theorem dataBits_decomp (msg : List Nat) :
    dataBits msg = byteBits (msg.length / 256)
      ++ (byteBits (msg.length % 256) ++ msg.flatMap byteBits) := by
  rw [dataBits, lengthBytes, List.cons_append, List.cons_append, List.nil_append,
    List.flatMap_cons, List.flatMap_cons]

/-- Exact result of a successful embed: the returned count is
`len(message_bytes) * 8`, and the buffer carries the data bits at the
first `16 + 8L` shuffle positions. -/
theorem embed_eq_ok (img : Image) (msg : List Nat) (g : MTState) (h w : Nat)
    (hwf : WellFormed img h w) (h3h : 3 ≤ h) (h3w : 3 ≤ w)
    (hlen : msg.length ≤ 65535) (hcap : 16 + 8 * msg.length ≤ (h - 2) * (w - 2)) :
    embed_message img msg g =
      (Except.ok (msg.length * 8),
       writeBits img (((shuffledInterior (compute_border_hash img) h w).take
           (16 + 8 * msg.length)).zip (dataBits msg)),
       (pyShuffle (interiorPixels h w)
         (pySeed (parseHexNum (compute_border_hash img) % 2 ^ 32))).2) := by
  have hh : img.length = h := hwf.1
  have hw0 : (img.getD 0 []).length = w := (hwf.2 0 (by omega)).1
  have htotal : (lengthBytes msg.length ++ msg).length * 8 = 16 + 8 * msg.length := by
    rw [List.length_append]
    simp [lengthBytes]
    ring
  simp only [embed_message]
  rw [hh, hw0, if_neg (by omega), htotal,
    generate_eq_ok (compute_border_hash img) h w (16 + 8 * msg.length) g (by omega)]
  rfl

/-- The timing variant embeds the identical buffer (its returned count is
`total_bits` instead). -/
theorem embed_timed_eq_ok (img : Image) (msg : List Nat) (g : MTState) (h w : Nat)
    (hwf : WellFormed img h w) (h3h : 3 ≤ h) (h3w : 3 ≤ w)
    (hlen : msg.length ≤ 65535) (hcap : 16 + 8 * msg.length ≤ (h - 2) * (w - 2)) :
    embed_message_timed img msg g =
      (Except.ok (16 + 8 * msg.length),
       writeBits img (((shuffledInterior (compute_border_hash img) h w).take
           (16 + 8 * msg.length)).zip (dataBits msg)),
       (pyShuffle (interiorPixels h w)
         (pySeed (parseHexNum (compute_border_hash img) % 2 ^ 32))).2) := by
  have hh : img.length = h := hwf.1
  have hw0 : (img.getD 0 []).length = w := (hwf.2 0 (by omega)).1
  have htotal : (lengthBytes msg.length ++ msg).length * 8 = 16 + 8 * msg.length := by
    rw [List.length_append]
    simp [lengthBytes]
    ring
  simp only [embed_message_timed]
  rw [hh, hw0, if_neg (by omega), htotal,
    generate_eq_ok (compute_border_hash img) h w (16 + 8 * msg.length) g (by omega)]
  rfl

/-! Reading back a watermarked buffer. -/

/-- Reading the LSBs at the write positions returns exactly the written
bits: positions distinct and interior, bits 0/1, buffer well formed. -/
theorem readBits_writeBits_full (img : Image) (h w : Nat) (hwf : WellFormed img h w)
    (h3h : 3 ≤ h) (h3w : 3 ≤ w) (pos : List (Nat × Nat)) (bits : List Nat)
    (hlenp : pos.length = bits.length) (hnd : pos.Nodup)
    (hmem : ∀ p ∈ pos, 1 ≤ p.1 ∧ p.1 < 1 + (h - 2) ∧ 1 ≤ p.2 ∧ p.2 < 1 + (w - 2))
    (hbits : ∀ b ∈ bits, b < 2) :
    readBits (writeBits img (pos.zip bits)) pos = bits := by
  have hzlen : (pos.zip bits).length = pos.length := by
    rw [List.length_zip]
    omega
  have hfst : List.map (fun pb => pb.1) (pos.zip bits) = pos := by
    rw [show (fun pb : (Nat × Nat) × Nat => pb.1) = Prod.fst from rfl,
      List.map_fst_zip pos bits (Nat.le_of_eq hlenp)]
  have hboundsAll : ∀ pb ∈ pos.zip bits, pb.1.1 < img.length ∧
      pb.1.2 < (img.getD pb.1.1 []).length ∧
      0 < ((img.getD pb.1.1 []).getD pb.1.2 []).length := by
    intro pb hpb
    have hImgLen : img.length = h := hwf.1
    have hp : pb.1 ∈ pos := (List.of_mem_zip hpb).1
    obtain ⟨b1, b2, b3, b4⟩ := hmem pb.1 hp
    have hy : pb.1.1 < img.length := by omega
    obtain ⟨hrl, hrest⟩ := hwf.2 pb.1.1 (by omega)
    have hx : pb.1.2 < (img.getD pb.1.1 []).length := by omega
    obtain ⟨hpxl, _⟩ := hrest pb.1.2 (by omega)
    exact ⟨hy, hx, by omega⟩
  apply List.ext_getElem?
  intro i
  unfold readBits
  rw [List.getElem?_map]
  by_cases hi : i < pos.length
  · have hib : i < bits.length := by omega
    rw [List.getElem?_eq_getElem hi, List.getElem?_eq_getElem hib]
    simp only [Option.map_some', Option.some.injEq]
    have hzl : i < (pos.zip bits).length := by omega
    have hat := pixelVal_writeBits_at (pos.zip bits) img i pos[i] bits[i]
      (by rw [List.getElem?_eq_getElem hzl, List.getElem_zip])
      (by rw [hfst]; exact hnd) hboundsAll
    rw [hat]
    have hpmem : pos[i] ∈ pos := List.getElem_mem hi
    obtain ⟨b1, b2, b3, b4⟩ := hmem pos[i] hpmem
    have hy : pos[i].1 < h := by omega
    have hx : pos[i].2 < w := by omega
    have hold : pixelVal img pos[i].1 pos[i].2 0 < 256 :=
      ((((hwf.2 pos[i].1 hy).2) pos[i].2 hx).2) 0 (by omega)
    exact lsb_read _ hold _ (hbits bits[i] (List.getElem_mem hib))
  · rw [List.getElem?_eq_none (by omega), List.getElem?_eq_none (by omega)]
    rfl

/-! Extraction from a freshly watermarked buffer. -/

/-- Extracting from the buffer a successful embed produced: the header
decodes to the payload length; length 0 yields the invalid-length
diagnostic, otherwise the payload bytes come back and are returned as the
message (or as the hex-dump diagnostic when not valid UTF-8). -/
theorem extract_writeBits (img : Image) (msg : List Nat) (h w : Nat) (g2 : MTState)
    (hwf : WellFormed img h w) (h3h : 3 ≤ h) (h3w : 3 ≤ w)
    (hbytes : ∀ b ∈ msg, b < 256) (hlen : msg.length ≤ 65535)
    (hcap : 16 + 8 * msg.length ≤ (h - 2) * (w - 2)) :
    (extract_message
        (writeBits img
          (((shuffledInterior (compute_border_hash img) h w).take
              (16 + 8 * msg.length)).zip (dataBits msg))) g2).1
      = if msg.length = 0 then Except.ok (ExtractResult.invalidLength 0)
        else if isValidUTF8 msg then Except.ok (ExtractResult.message msg)
        else Except.ok (ExtractResult.decodeError msg) := by
  set f := compute_border_hash img with hf
  set bits := dataBits msg with hbits0
  set pos := (shuffledInterior f h w).take (16 + 8 * msg.length) with hpos0
  set W := writeBits img (pos.zip bits) with hW0
  have hImgLen : img.length = h := hwf.1
  have hImgRow0 : (img.getD 0 []).length = w := (hwf.2 0 (by omega)).1
  have hposlen : pos.length = 16 + 8 * msg.length := by
    rw [hpos0, List.length_take, shuffledInterior_length]
    omega
  have hbitlen : bits.length = 16 + 8 * msg.length := by
    rw [hbits0, dataBits_length]
  have hposnd : pos.Nodup :=
    (List.take_sublist _ _).nodup (shuffledInterior_nodup f h w)
  have hposmem : ∀ p ∈ pos, 1 ≤ p.1 ∧ p.1 < 1 + (h - 2) ∧ 1 ≤ p.2 ∧ p.2 < 1 + (w - 2) := by
    intro p hp
    exact mem_shuffledInterior f h w p.1 p.2 (List.take_subset _ _ hp)
  have hbits2 : ∀ b ∈ bits, b < 2 := by
    rw [hbits0]; exact dataBits_lt_two msg
  have hread : readBits W pos = bits :=
    readBits_writeBits_full img h w hwf h3h h3w pos bits
      (by omega) hposnd hposmem hbits2
  have hWlen : W.length = h := by
    rw [hW0, writeBits_length, hImgLen]
  have hWrow0 : (W.getD 0 []).length = w := by
    rw [hW0, writeBits_rowlen, hImgRow0]
  have hhash : compute_border_hash W = f := by
    rw [hW0, hf]
    apply compute_border_hash_writeBits
    intro pb hpb
    have hp := hposmem pb.1 (List.of_mem_zip hpb).1
    refine ⟨by omega, by rw [hImgLen]; omega, by omega, by rw [hImgRow0]; omega⟩
  have hhead16 : readBits W ((shuffledInterior f h w).take 16) = bits.take 16 := by
    have e1 : (shuffledInterior f h w).take 16 = pos.take 16 := by
      rw [hpos0, List.take_take]
      congr 1
      omega
    rw [e1]
    unfold readBits at hread ⊢
    rw [List.map_take, hread]
  have hdec : decodeHeader (bits.take 16) = msg.length := by
    have h16 : bits.take 16 = byteBits (msg.length / 256) ++ byteBits (msg.length % 256) := by
      rw [hbits0, dataBits_decomp, ← List.append_assoc]
      exact List.take_left' (by rw [List.length_append, byteBits_length, byteBits_length])
    rw [h16]
    have hd := decodeHeader_encode msg.length (by omega) []
    rw [List.append_nil] at hd
    exact hd
  simp only [extract_message]
  rw [hWlen, hWrow0, hhash, generate_eq_ok f h w 16 g2 (by omega)]
  split
  case _ e g1 heq =>
    exact absurd (congrArg Prod.fst heq) (by simp)
  case _ positions g1 heq =>
    obtain ⟨hpose, hge⟩ : Except.ok ((shuffledInterior f h w).take 16) = Except.ok positions
        ∧ (pyShuffle (interiorPixels h w) (pySeed (parseHexNum f % 2 ^ 32))).2 = g1 :=
      ⟨congrArg Prod.fst heq, congrArg Prod.snd heq⟩
    obtain rfl : (shuffledInterior f h w).take 16 = positions := by
      exact Except.ok.inj hpose
    rw [hhead16, hdec]
    by_cases hL0 : msg.length = 0
    · rw [if_pos (Or.inr (by omega)), if_pos hL0, hL0]
    · rw [if_neg (by omega), if_neg hL0]
      have harith : 16 + msg.length * 8 = 16 + 8 * msg.length := by ring
      rw [harith, generate_eq_ok f h w (16 + 8 * msg.length) g1 (by omega)]
      split
      case _ e g2' heq2 =>
        exact absurd (congrArg Prod.fst heq2) (by simp)
      case _ positions2 g2' heq2 =>
        obtain rfl : (shuffledInterior f h w).take (16 + 8 * msg.length) = positions2 :=
          Except.ok.inj (congrArg Prod.fst heq2)
        rw [← hpos0]
        have hdrop : readBits W (pos.drop 16) = bits.drop 16 := by
          unfold readBits at hread ⊢
          rw [List.map_drop, hread]
        rw [hdrop]
        have hpayload : bits.drop 16 = msg.flatMap byteBits := by
          rw [hbits0, dataBits_decomp, ← List.append_assoc]
          exact List.drop_left' (by rw [List.length_append, byteBits_length, byteBits_length])
        rw [hpayload]
        have hbytes_eq : (List.range msg.length).map (byteFromBits (msg.flatMap byteBits))
            = msg := by
          apply List.ext_getElem (by simp)
          intro i h1 h2
          rw [List.getElem_map, List.getElem_range,
            byteFromBits_flatMap msg i (by simpa using h2),
            foldBits_byteBits _ (hbytes _ (by
              rw [List.getD_eq_getElem msg 0 (by simpa using h2)]
              exact List.getElem_mem _)),
            List.getD_eq_getElem msg 0 (by simpa using h2)]
        rw [hbytes_eq]
        by_cases hv : isValidUTF8 msg
        · rw [if_pos hv, if_pos hv]
        · rw [if_neg hv, if_neg hv]

/-! Remaining helper lemmas. -/

/-- Exact result of an embed that exceeds the interior capacity: the
capacity `ValueError`, with the buffer untouched. -/
theorem embed_eq_err_capacity (img : Image) (msg : List Nat) (g : MTState) (h w : Nat)
    (hwf : WellFormed img h w) (h3h : 3 ≤ h) (h3w : 3 ≤ w)
    (hlen : msg.length ≤ 65535) (hover : (h - 2) * (w - 2) < 16 + 8 * msg.length) :
    embed_message img msg g =
      (Except.error (capacityMsg (16 + 8 * msg.length)), img,
       pySeed (parseHexNum (compute_border_hash img) % 2 ^ 32)) := by
  have hh : img.length = h := hwf.1
  have hw0 : (img.getD 0 []).length = w := (hwf.2 0 (by omega)).1
  have htotal : (lengthBytes msg.length ++ msg).length * 8 = 16 + 8 * msg.length := by
    rw [List.length_append]
    simp only [lengthBytes, List.length_cons, List.length_nil]
    omega
  simp only [embed_message]
  rw [hh, hw0, if_neg (by omega), htotal,
    generate_eq_err (compute_border_hash img) h w (16 + 8 * msg.length) g (by omega)]

/-- Uniform buffers are well formed. -/
theorem wf_replicate (h w v : Nat) (hv : v < 256) :
    WellFormed (List.replicate h (List.replicate w (List.replicate 3 v))) h w := by
  have hrow : ∀ y, y < h →
      (List.replicate h (List.replicate w (List.replicate 3 v))).getD y []
        = List.replicate w (List.replicate 3 v) := by
    intro y hy
    rw [List.getD_eq_getElem?_getD, List.getElem?_replicate, if_pos hy]
    rfl
  have hpx : ∀ x, x < w →
      (List.replicate w (List.replicate 3 v)).getD x [] = List.replicate 3 v := by
    intro x hx
    rw [List.getD_eq_getElem?_getD, List.getElem?_replicate, if_pos hx]
    rfl
  refine ⟨by simp, fun y hy => ?_⟩
  rw [hrow y hy]
  refine ⟨by simp, fun x hx => ?_⟩
  rw [hpx x hx]
  refine ⟨by simp, fun c hc => ?_⟩
  unfold pixelVal
  rw [hrow y hy, hpx x hx, List.getD_eq_getElem?_getD, List.getElem?_replicate, if_pos hc]
  simpa using hv

/-- The final decode branch of extract always produces an `ok` value. -/
theorem exists_ok_of_if (c : Bool) (a b : ExtractResult) (s s' : MTState) :
    ∃ r, (if c then ((Except.ok a : Except String ExtractResult), s)
      else (Except.ok b, s')).1 = Except.ok r := by
  cases c
  · exact ⟨b, rfl⟩
  · exact ⟨a, rfl⟩

/-- LSB reads are 0/1 bits. -/
theorem readBits_lt_two (img : Image) (positions : List (Nat × Nat)) :
    ∀ b ∈ readBits img positions, b < 2 := by
  intro b hb
  unfold readBits at hb
  simp only [List.mem_map] at hb
  obtain ⟨p, _, rfl⟩ := hb
  have := Nat.and_one_is_mod (pixelVal img p.1 p.2 0)
  omega

/-! Claim theorems. -/

/-- C1 — Round-trip: for every well-formed buffer with `H, W ≥ 3` whose
interior capacity covers `16 + 8·len(msg)` bits, and every non-empty
valid-UTF-8 byte message of at most 65535 bytes, extracting from the
buffer `embed_message` produced returns exactly the original message
(whatever the global generator states are). -/
theorem C1_round_trip (img : Image) (msg : List Nat) (h w : Nat) (g g2 : MTState)
    (hwf : WellFormed img h w) (h3h : 3 ≤ h) (h3w : 3 ≤ w)
    (hne : msg ≠ []) (hlen : msg.length ≤ 65535)
    (hbytes : ∀ b ∈ msg, b < 256) (hutf : isValidUTF8 msg = true)
    (hcap : 16 + 8 * msg.length ≤ (h - 2) * (w - 2)) :
    ∃ img' g', embed_message img msg g = (Except.ok (msg.length * 8), img', g')
      ∧ (extract_message img' g2).1 = Except.ok (ExtractResult.message msg) := by
  refine ⟨_, _, embed_eq_ok img msg g h w hwf h3h h3w hlen hcap, ?_⟩
  rw [extract_writeBits img msg h w g2 hwf h3h h3w hbytes hlen hcap,
    if_neg (by simpa using hne), if_pos hutf]

/-- C1 witness: the spec's concrete scenario, message `"Hi"` on the
all-black 10×10 buffer. -/
theorem C1_round_trip_witness :
    WellFormed imgTen 10 10 ∧ ([72, 105] : List Nat) ≠ [] ∧
      ([72, 105] : List Nat).length ≤ 65535 ∧ (∀ b ∈ ([72, 105] : List Nat), b < 256) ∧
      isValidUTF8 [72, 105] = true ∧ 16 + 8 * ([72, 105] : List Nat).length ≤ (10 - 2) * (10 - 2) ∧
      ∃ img' g', embed_message imgTen [72, 105] gInit
          = (Except.ok (([72, 105] : List Nat).length * 8), img', g')
        ∧ (extract_message img' gInit).1 = Except.ok (ExtractResult.message [72, 105]) :=
  ⟨wf_replicate 10 10 0 (by decide), by decide, by decide, by decide, by decide, by decide,
   C1_round_trip imgTen [72, 105] 10 10 gInit gInit (wf_replicate 10 10 0 (by decide))
     (by decide) (by decide) (by decide) (by decide) (by decide) (by decide) (by decide)⟩

/-- C2 counterexample: on the all-black 3×3 buffer (a valid buffer with
`H = W = 3`), `extract_message` does not return a diagnostic string — it
raises the capacity `ValueError` already while reading the 16 header bits,
because the interior holds a single pixel. -/
theorem C2_counterexample :
    (extract_message imgThree gInit).1 = Except.error (capacityMsg 16) := by
  have hwf : WellFormed imgThree 3 3 := wf_replicate 3 3 0 (by decide)
  have hh : imgThree.length = 3 := hwf.1
  have hw0 : (imgThree.getD 0 []).length = 3 := (hwf.2 0 (by omega)).1
  simp only [extract_message]
  rw [hh, hw0, generate_eq_err (compute_border_hash imgThree) 3 3 16 gInit (by decide)]

/-- C2 as amended: extraction degrades to a diagnostic (never raising)
only as long as the 16 header positions fit and, when the decoded length
`L` is at least 1, `16 + 8L` also fits the interior: if the interior
cannot hold even the header, extraction raises the capacity
`ValueError`; if the header fits but the decoded `L ≥ 1` needs
`16 + 8L` positions and the interior holds fewer, extraction again
raises the capacity `ValueError` (the typical fate of a watermark-free
buffer); in all remaining cases extraction returns a value without
raising. -/
theorem C2_amended (img : Image) (h w : Nat) (g : MTState)
    (hwf : WellFormed img h w) (h3h : 3 ≤ h) (h3w : 3 ≤ w) :
    ((h - 2) * (w - 2) < 16 →
      (extract_message img g).1 = Except.error (capacityMsg 16))
    ∧ (16 ≤ (h - 2) * (w - 2) → 1 ≤ headerLengthOf img h w →
      (h - 2) * (w - 2) < 16 + 8 * headerLengthOf img h w →
      (extract_message img g).1
        = Except.error (capacityMsg (16 + 8 * headerLengthOf img h w)))
    ∧ (16 ≤ (h - 2) * (w - 2) →
      (1 ≤ headerLengthOf img h w →
        16 + 8 * headerLengthOf img h w ≤ (h - 2) * (w - 2)) →
      ∃ r, (extract_message img g).1 = Except.ok r) := by
  have hh : img.length = h := hwf.1
  have hw0 : (img.getD 0 []).length = w := (hwf.2 0 (by omega)).1
  refine ⟨?_, ?_, ?_⟩
  · intro hsmall
    simp only [extract_message]
    rw [hh, hw0, generate_eq_err (compute_border_hash img) h w 16 g (by omega)]
  · intro hcap16 hL1 hover
    simp only [extract_message]
    rw [hh, hw0, generate_eq_ok (compute_border_hash img) h w 16 g (by omega)]
    split
    case _ e g1 heq => exact absurd (congrArg Prod.fst heq) (by simp)
    case _ positions g1 heq =>
      obtain rfl : (shuffledInterior (compute_border_hash img) h w).take 16 = positions :=
        Except.ok.inj (congrArg Prod.fst heq)
      rw [show decodeHeader (readBits img
          ((shuffledInterior (compute_border_hash img) h w).take 16))
        = headerLengthOf img h w from rfl]
      have hLle : headerLengthOf img h w ≤ 65535 := by
        unfold headerLengthOf
        exact decodeHeader_le _ (readBits_lt_two img _)
      rw [if_neg (by omega)]
      have harith : 16 + headerLengthOf img h w * 8
          = 16 + 8 * headerLengthOf img h w := by ring
      rw [harith,
        generate_eq_err (compute_border_hash img) h w _ g1 (by omega)]
  · intro hcap16 hfits
    simp only [extract_message]
    rw [hh, hw0, generate_eq_ok (compute_border_hash img) h w 16 g (by omega)]
    split
    case _ e g1 heq => exact absurd (congrArg Prod.fst heq) (by simp)
    case _ positions g1 heq =>
      obtain rfl : (shuffledInterior (compute_border_hash img) h w).take 16 = positions :=
        Except.ok.inj (congrArg Prod.fst heq)
      rw [show decodeHeader (readBits img
          ((shuffledInterior (compute_border_hash img) h w).take 16))
        = headerLengthOf img h w from rfl]
      have hLle : headerLengthOf img h w ≤ 65535 := by
        unfold headerLengthOf
        exact decodeHeader_le _ (readBits_lt_two img _)
      by_cases hL0 : headerLengthOf img h w = 0
      · rw [if_pos (Or.inr (by omega))]
        exact ⟨_, rfl⟩
      · rw [if_neg (by omega)]
        have harith : 16 + headerLengthOf img h w * 8
            = 16 + 8 * headerLengthOf img h w := by ring
        rw [harith,
          generate_eq_ok (compute_border_hash img) h w _ g1 (hfits (by omega))]
        split
        case _ e g2' heq2 => exact absurd (congrArg Prod.fst heq2) (by simp)
        case _ positions2 g2' heq2 =>
          obtain rfl : _ = positions2 := Except.ok.inj (congrArg Prod.fst heq2)
          exact exists_ok_of_if _ _ _ _ _

/-- C2 amended witness: the all-black 7×7 buffer has capacity 25 ≥ 16. -/
theorem C2_amended_witness :
    WellFormed imgSeven 7 7 ∧
      ((((7 - 2) * (7 - 2) < 16 →
        (extract_message imgSeven gInit).1 = Except.error (capacityMsg 16))
      ∧ (16 ≤ (7 - 2) * (7 - 2) → 1 ≤ headerLengthOf imgSeven 7 7 →
        (7 - 2) * (7 - 2) < 16 + 8 * headerLengthOf imgSeven 7 7 →
        (extract_message imgSeven gInit).1
          = Except.error (capacityMsg (16 + 8 * headerLengthOf imgSeven 7 7)))
      ∧ (16 ≤ (7 - 2) * (7 - 2) →
        (1 ≤ headerLengthOf imgSeven 7 7 →
          16 + 8 * headerLengthOf imgSeven 7 7 ≤ (7 - 2) * (7 - 2)) →
        ∃ r, (extract_message imgSeven gInit).1 = Except.ok r))) :=
  ⟨wf_replicate 7 7 0 (by decide),
   C2_amended imgSeven 7 7 gInit (wf_replicate 7 7 0 (by decide)) (by decide) (by decide)⟩

/-- C3 — Position-generator determinism and reproducing front segments:
with fixed fingerprint and dimensions the returned value is independent of
the incoming global generator state (the call reseeds from scratch), two
equal-count calls agree, and a count-`k` call returns exactly the first
`k` entries of any count-`k2 ≥ k` call, because the whole interior is
re-enumerated and re-shuffled from the same seed each time. -/
theorem C3_determinism_and_front (f : String) (h w k k2 : Nat) (g g' : MTState)
    (hk : k ≤ k2) (hk2 : k2 ≤ (h - 2) * (w - 2)) :
    ((generate_pseudo_random_positions f h w k g).1
        = (generate_pseudo_random_positions f h w k g').1)
    ∧ ∃ l l2, (generate_pseudo_random_positions f h w k g).1 = Except.ok l
      ∧ (generate_pseudo_random_positions f h w k2 g').1 = Except.ok l2
      ∧ l = l2.take k := by
  refine ⟨rfl, _, _, generate_ok f h w k g (by omega), generate_ok f h w k2 g' hk2, ?_⟩
  rw [List.take_take]
  congr 1
  omega

/-- C3 witness: 4×4 buffer fingerprint-independent check at counts 2 ≤ 4. -/
theorem C3_determinism_and_front_witness :
    2 ≤ 4 ∧ 4 ≤ (4 - 2) * (4 - 2) ∧
      (((generate_pseudo_random_positions "ab" 4 4 2 gInit).1
          = (generate_pseudo_random_positions "ab" 4 4 2 (pySeed 1)).1)
      ∧ ∃ l l2, (generate_pseudo_random_positions "ab" 4 4 2 gInit).1 = Except.ok l
        ∧ (generate_pseudo_random_positions "ab" 4 4 4 (pySeed 1)).1 = Except.ok l2
        ∧ l = l2.take 2) :=
  ⟨by decide, by decide,
   C3_determinism_and_front "ab" 4 4 2 4 gInit (pySeed 1) (by decide) (by decide)⟩

/-- C4 — Frame property and border invariance: a successful embed changes
at most the channel-0 LSBs at its generated interior positions — any cell
that changes is one of those positions at channel 0, the upper seven bits
of channel 0 are everywhere preserved — and the border hash of the
watermarked buffer equals the fingerprint of the original. -/
theorem C4_frame_property (img : Image) (msg : List Nat) (h w : Nat) (g : MTState)
    (hwf : WellFormed img h w) (h3h : 3 ≤ h) (h3w : 3 ≤ w)
    (hlen : msg.length ≤ 65535) (hcap : 16 + 8 * msg.length ≤ (h - 2) * (w - 2)) :
    ∃ img' g', embed_message img msg g = (Except.ok (msg.length * 8), img', g')
      ∧ (∀ y x c, pixelVal img' y x c ≠ pixelVal img y x c →
          (y, x) ∈ (shuffledInterior (compute_border_hash img) h w).take
            (16 + 8 * msg.length) ∧ c = 0)
      ∧ (∀ y x, pixelVal img' y x 0 >>> 1 = pixelVal img y x 0 >>> 1)
      ∧ compute_border_hash img' = compute_border_hash img := by
  have hImgLen : img.length = h := hwf.1
  have hImgRow0 : (img.getD 0 []).length = w := (hwf.2 0 (by omega)).1
  have hposlen : ((shuffledInterior (compute_border_hash img) h w).take
      (16 + 8 * msg.length)).length = 16 + 8 * msg.length := by
    rw [List.length_take, shuffledInterior_length]
    omega
  have hbitlen : (dataBits msg).length = 16 + 8 * msg.length := dataBits_length msg
  have hposnd : ((shuffledInterior (compute_border_hash img) h w).take
      (16 + 8 * msg.length)).Nodup :=
    (List.take_sublist _ _).nodup (shuffledInterior_nodup _ h w)
  have hposmem : ∀ p ∈ (shuffledInterior (compute_border_hash img) h w).take
      (16 + 8 * msg.length), 1 ≤ p.1 ∧ p.1 < 1 + (h - 2) ∧ 1 ≤ p.2 ∧ p.2 < 1 + (w - 2) :=
    fun p hp => mem_shuffledInterior _ h w p.1 p.2 (List.take_subset _ _ hp)
  have hbits2 : ∀ b ∈ dataBits msg, b < 2 := dataBits_lt_two msg
  have hfst : List.map (fun pb => pb.1)
      (((shuffledInterior (compute_border_hash img) h w).take
        (16 + 8 * msg.length)).zip (dataBits msg))
      = (shuffledInterior (compute_border_hash img) h w).take (16 + 8 * msg.length) := by
    rw [show (fun pb : (Nat × Nat) × Nat => pb.1) = Prod.fst from rfl,
      List.map_fst_zip _ _ (by omega)]
  have hboundsAll : ∀ pb ∈ ((shuffledInterior (compute_border_hash img) h w).take
        (16 + 8 * msg.length)).zip (dataBits msg),
      pb.1.1 < img.length ∧ pb.1.2 < (img.getD pb.1.1 []).length ∧
        0 < ((img.getD pb.1.1 []).getD pb.1.2 []).length := by
    intro pb hpb
    obtain ⟨b1, b2, b3, b4⟩ := hposmem pb.1 (List.of_mem_zip hpb).1
    have hy : pb.1.1 < img.length := by omega
    obtain ⟨hrl, hrest⟩ := hwf.2 pb.1.1 (by omega)
    have hx : pb.1.2 < (img.getD pb.1.1 []).length := by omega
    obtain ⟨hpxl, _⟩ := hrest pb.1.2 (by omega)
    exact ⟨hy, hx, by omega⟩
  refine ⟨_, _, embed_eq_ok img msg g h w hwf h3h h3w hlen hcap, ?_, ?_, ?_⟩
  · intro y x c hdiff
    constructor
    · by_contra hnm
      exact hdiff (pixelVal_writeBits_notmem _ img y x c
        (fun pb hpb hpe => hnm (hpe ▸ (List.of_mem_zip hpb).1)))
    · by_contra hc0
      exact hdiff (pixelVal_writeBits_chan _ img y x c hc0)
  · intro y x
    by_cases hmem : (y, x) ∈ (shuffledInterior (compute_border_hash img) h w).take
        (16 + 8 * msg.length)
    · obtain ⟨i, hi, hip⟩ := List.mem_iff_getElem.mp hmem
      have hib : i < (dataBits msg).length := by omega
      have hzi : (((shuffledInterior (compute_border_hash img) h w).take
            (16 + 8 * msg.length)).zip (dataBits msg))[i]?
          = some ((y, x), (dataBits msg)[i]) := by
        rw [List.getElem?_eq_getElem (by rw [List.length_zip]; omega), List.getElem_zip, hip]
      have hat := pixelVal_writeBits_at _ img i (y, x) (dataBits msg)[i] hzi
        (by rw [hfst]; exact hposnd) hboundsAll
      rw [hat]
      obtain ⟨b1, b2, b3, b4⟩ := hposmem (y, x) hmem
      have hold : pixelVal img y x 0 < 256 :=
        (((hwf.2 y (by omega)).2) x (by omega)).2 0 (by omega)
      exact lsb_write_upper _ hold _ (hbits2 _ (List.getElem_mem hib))
    · rw [pixelVal_writeBits_notmem _ img y x 0
        (fun pb hpb hpe => hmem (hpe ▸ (List.of_mem_zip hpb).1))]
  · apply compute_border_hash_writeBits
    intro pb hpb
    obtain ⟨b1, b2, b3, b4⟩ := hposmem pb.1 (List.of_mem_zip hpb).1
    exact ⟨by omega, by rw [hImgLen]; omega, by omega, by rw [hImgRow0]; omega⟩

/-- C4 witness: the 10×10 all-black buffer with message `"Hi"`. -/
theorem C4_frame_property_witness :
    WellFormed imgTen 10 10 ∧ ([72, 105] : List Nat).length ≤ 65535 ∧
      16 + 8 * ([72, 105] : List Nat).length ≤ (10 - 2) * (10 - 2) ∧
      ∃ img' g', embed_message imgTen [72, 105] gInit
          = (Except.ok (([72, 105] : List Nat).length * 8), img', g')
        ∧ (∀ y x c, pixelVal img' y x c ≠ pixelVal imgTen y x c →
            (y, x) ∈ (shuffledInterior (compute_border_hash imgTen) 10 10).take
              (16 + 8 * ([72, 105] : List Nat).length) ∧ c = 0)
        ∧ (∀ y x, pixelVal img' y x 0 >>> 1 = pixelVal imgTen y x 0 >>> 1)
        ∧ compute_border_hash img' = compute_border_hash imgTen :=
  ⟨wf_replicate 10 10 0 (by decide), by decide, by decide,
   C4_frame_property imgTen [72, 105] 10 10 gInit (wf_replicate 10 10 0 (by decide))
     (by decide) (by decide) (by decide) (by decide)⟩

/-- C5 — Capacity boundary: for every pair of dimensions at least 3 and
every fingerprint, the generator fails with the capacity error exactly
when the requested count exceeds `(H-2)*(W-2)`; consequently an embed
whose total bit count `16 + 8L` equals the interior capacity exactly
succeeds, and any embed needing more bits than the capacity fails with
the capacity `ValueError`. -/
theorem C5_capacity_boundary (f : String) (n : Nat) (img : Image) (msg : List Nat)
    (h w : Nat) (g : MTState)
    (hwf : WellFormed img h w) (h3h : 3 ≤ h) (h3w : 3 ≤ w) :
    ((∃ e, (generate_pseudo_random_positions f h w n g).1 = Except.error e)
        ↔ (h - 2) * (w - 2) < n)
    ∧ (msg.length ≤ 65535 → 16 + 8 * msg.length = (h - 2) * (w - 2) →
        ∃ img' g', embed_message img msg g = (Except.ok (msg.length * 8), img', g'))
    ∧ (∀ msg2 : List Nat, msg2.length ≤ 65535 →
        (h - 2) * (w - 2) < 16 + 8 * msg2.length →
        (embed_message img msg2 g).1 = Except.error (capacityMsg (16 + 8 * msg2.length))) := by
  refine ⟨⟨?_, ?_⟩, ?_, ?_⟩
  · rintro ⟨e, he⟩
    by_contra hn
    rw [generate_ok f h w n g (by omega)] at he
    simp at he
  · intro hn
    exact ⟨capacityMsg n, generate_err f h w n g hn⟩
  · intro hlen hexact
    exact ⟨_, _, embed_eq_ok img msg g h w hwf h3h h3w hlen (by omega)⟩
  · intro msg2 hlen2 hover2
    rw [embed_eq_err_capacity img msg2 g h w hwf h3h h3w hlen2 hover2]

/-- C5 witness: the 5×10 all-black buffer has exactly 24 interior pixels,
the bit count of the 1-byte message `"A"`. -/
theorem C5_capacity_boundary_witness :
    WellFormed imgFiveTen 5 10 ∧
      (((∃ e, (generate_pseudo_random_positions "x" 5 10 7 gInit).1 = Except.error e)
          ↔ (5 - 2) * (10 - 2) < 7)
      ∧ (([65] : List Nat).length ≤ 65535 →
          16 + 8 * ([65] : List Nat).length = (5 - 2) * (10 - 2) →
          ∃ img' g', embed_message imgFiveTen [65] gInit
            = (Except.ok (([65] : List Nat).length * 8), img', g'))
      ∧ (∀ msg2 : List Nat, msg2.length ≤ 65535 →
          (5 - 2) * (10 - 2) < 16 + 8 * msg2.length →
          (embed_message imgFiveTen msg2 gInit).1
            = Except.error (capacityMsg (16 + 8 * msg2.length)))) :=
  ⟨wf_replicate 5 10 0 (by decide),
   C5_capacity_boundary "x" 7 imgFiveTen [65] 5 10 gInit (wf_replicate 5 10 0 (by decide))
     (by decide) (by decide)⟩

/-- C6 — Size boundary with atomicity: for every buffer and generator
state, a message longer than 65535 bytes makes `embed_message` fail with
the size `ValueError` before touching anything — buffer and generator
state are returned unchanged — while a 65535-byte message passes the
size check and succeeds whenever the interior capacity suffices. -/
theorem C6_size_boundary (img : Image) (msg : List Nat) (h w : Nat) (g : MTState)
    (hwf : WellFormed img h w) (h3h : 3 ≤ h) (h3w : 3 ≤ w) :
    (∀ msg2 : List Nat, 65535 < msg2.length →
        embed_message img msg2 g = (Except.error sizeMsg, img, g))
    ∧ (msg.length = 65535 → 16 + 8 * 65535 ≤ (h - 2) * (w - 2) →
        ∃ img' g', embed_message img msg g = (Except.ok (65535 * 8), img', g')) := by
  constructor
  · intro msg2 hbig
    simp only [embed_message]
    rw [if_pos (by omega)]
  · intro hlen hcap
    refine ⟨writeBits img (((shuffledInterior (compute_border_hash img) h w).take
        (16 + 8 * msg.length)).zip (dataBits msg)),
      (pyShuffle (interiorPixels h w)
        (pySeed (parseHexNum (compute_border_hash img) % 2 ^ 32))).2, ?_⟩
    have he := embed_eq_ok img msg g h w hwf h3h h3w (by omega) (by omega)
    rw [he, hlen]

/-- C6 witness: the 727×727 buffer (525625 interior pixels ≥ 524296 bits
needed) with the 65535-byte message of `"a"`s. -/
theorem C6_size_boundary_witness :
    WellFormed imgBig 727 727 ∧
      ((∀ msg2 : List Nat, 65535 < msg2.length →
          embed_message imgBig msg2 gInit = (Except.error sizeMsg, imgBig, gInit))
      ∧ ((List.replicate 65535 97).length = 65535 →
          16 + 8 * 65535 ≤ (727 - 2) * (727 - 2) →
          ∃ img' g', embed_message imgBig (List.replicate 65535 97) gInit
            = (Except.ok (65535 * 8), img', g'))) :=
  ⟨wf_replicate 727 727 0 (by decide),
   C6_size_boundary imgBig (List.replicate 65535 97) 727 727 gInit
     (wf_replicate 727 727 0 (by decide)) (by decide) (by decide)⟩

/-- C7 counterexample: on the 10×10 buffer with the 2-byte message
`"Hi"`, the plain `embed_message` returns 16, not the total bit count
`16 + 8·2 = 32` written into the image. -/
theorem C7_counterexample :
    (embed_message imgTen [72, 105] gInit).1 = Except.ok 16
    ∧ (Except.ok 16 : Except String Nat) ≠ Except.ok (16 + 8 * 2) := by
  constructor
  · rw [embed_eq_ok imgTen [72, 105] gInit 10 10 (wf_replicate 10 10 0 (by decide))
      (by decide) (by decide) (by decide) (by decide)]
    rfl
  · simp

/-- C7 as amended: on success the plain `embed_message` returns the
payload bit count `8·L` (the 16 header bits excluded), while the
timing-instrumented variant returns the total bit count `16 + 8·L`. -/
theorem C7_amended (img : Image) (msg : List Nat) (h w : Nat) (g : MTState)
    (hwf : WellFormed img h w) (h3h : 3 ≤ h) (h3w : 3 ≤ w)
    (hlen : msg.length ≤ 65535) (hcap : 16 + 8 * msg.length ≤ (h - 2) * (w - 2)) :
    (embed_message img msg g).1 = Except.ok (msg.length * 8)
    ∧ (embed_message_timed img msg g).1 = Except.ok (16 + 8 * msg.length) := by
  constructor
  · rw [embed_eq_ok img msg g h w hwf h3h h3w hlen hcap]
  · rw [embed_timed_eq_ok img msg g h w hwf h3h h3w hlen hcap]

/-- C7 amended witness: the same concrete scenario. -/
theorem C7_amended_witness :
    WellFormed imgTen 10 10 ∧ ([72, 105] : List Nat).length ≤ 65535 ∧
      16 + 8 * ([72, 105] : List Nat).length ≤ (10 - 2) * (10 - 2) ∧
      ((embed_message imgTen [72, 105] gInit).1
          = Except.ok (([72, 105] : List Nat).length * 8)
      ∧ (embed_message_timed imgTen [72, 105] gInit).1
          = Except.ok (16 + 8 * ([72, 105] : List Nat).length)) :=
  ⟨wf_replicate 10 10 0 (by decide), by decide, by decide,
   C7_amended imgTen [72, 105] 10 10 gInit (wf_replicate 10 10 0 (by decide))
     (by decide) (by decide) (by decide) (by decide)⟩

/-- C8 — Variant equivalence: the plain and the timing-instrumented
implementations agree at the codec level — for every buffer, message and
generator state the two embeds produce the identical watermarked buffer
(and final generator state), and the two extracts return the identical
result (the unmodelled `TimingInfo` aside). -/
theorem C8_variant_equivalence :
    (∀ (img : Image) (msg : List Nat) (g : MTState),
      (embed_message img msg g).2 = (embed_message_timed img msg g).2)
    ∧ ∀ (img : Image) (g : MTState),
      extract_message img g = extract_message_timed img g := by
  constructor
  · intro img msg g
    simp only [embed_message, embed_message_timed]
    by_cases hsz : msg.length > 65535
    · rw [if_pos hsz, if_pos hsz]
    · rw [if_neg hsz, if_neg hsz]
      cases hgen : generate_pseudo_random_positions (compute_border_hash img) img.length
          ((img.getD 0 []).length) ((lengthBytes msg.length ++ msg).length * 8) g with
      | mk r g1 => cases r <;> rfl
  · intro img g
    rfl

/-- C9 — Position-sequence well-formedness: whenever the requested count
fits the interior, the generator returns exactly `count` pairwise-distinct
coordinates, all strictly inside the border ring. -/
theorem C9_position_wellformed (f : String) (h w n : Nat) (g : MTState)
    (h3h : 3 ≤ h) (h3w : 3 ≤ w) (hn : n ≤ (h - 2) * (w - 2)) :
    ∃ l, (generate_pseudo_random_positions f h w n g).1 = Except.ok l
      ∧ l.length = n ∧ l.Nodup
      ∧ ∀ p ∈ l, 1 ≤ p.1 ∧ p.1 ≤ h - 2 ∧ 1 ≤ p.2 ∧ p.2 ≤ w - 2 := by
  refine ⟨_, generate_ok f h w n g hn, ?_, ?_, ?_⟩
  · rw [List.length_take, shuffledInterior_length]
    omega
  · exact (List.take_sublist _ _).nodup (shuffledInterior_nodup f h w)
  · intro p hp
    have := mem_shuffledInterior f h w p.1 p.2 (List.take_subset _ _ hp)
    omega

/-- C9 witness: 3 positions on a 4×5 interior. -/
theorem C9_position_wellformed_witness :
    3 ≤ 4 ∧ 3 ≤ 5 ∧ 3 ≤ (4 - 2) * (5 - 2) ∧
      ∃ l, (generate_pseudo_random_positions "" 4 5 3 gInit).1 = Except.ok l
        ∧ l.length = 3 ∧ l.Nodup
        ∧ ∀ p ∈ l, 1 ≤ p.1 ∧ p.1 ≤ 4 - 2 ∧ 1 ≤ p.2 ∧ p.2 ≤ 5 - 2 :=
  ⟨by decide, by decide, by decide,
   C9_position_wellformed "" 4 5 3 gInit (by decide) (by decide) (by decide)⟩

/-- C10 — Empty-message edge case: embedding the empty string succeeds at
the buffer level (returning 0, with only the 16 zero header bits
written), but extracting from the result yields the invalid-length
diagnostic for length 0, not the empty message; and the header decoder
can never produce a value above 65535, so the `> 65535` branch of the
length check is unreachable. -/
theorem C10_empty_message (img : Image) (h w : Nat) (g g2 : MTState)
    (hwf : WellFormed img h w) (h3h : 3 ≤ h) (h3w : 3 ≤ w)
    (hcap : 16 ≤ (h - 2) * (w - 2)) :
    (∃ img' g', embed_message img [] g = (Except.ok 0, img', g')
      ∧ (extract_message img' g2).1 = Except.ok (ExtractResult.invalidLength 0))
    ∧ ∀ (img2 : Image) (pos2 : List (Nat × Nat)),
        decodeHeader (readBits img2 pos2) ≤ 65535 := by
  constructor
  · refine ⟨writeBits img (((shuffledInterior (compute_border_hash img) h w).take
        (16 + 8 * List.length ([] : List Nat))).zip (dataBits [])),
      (pyShuffle (interiorPixels h w)
        (pySeed (parseHexNum (compute_border_hash img) % 2 ^ 32))).2, ?_, ?_⟩
    · rw [embed_eq_ok img [] g h w hwf h3h h3w (by simp) (by simpa using hcap)]
      rfl
    · rw [extract_writeBits img [] h w g2 hwf h3h h3w (by simp) (by simp)
        (by simpa using hcap),
        if_pos (show List.length ([] : List Nat) = 0 from rfl)]
  · intro img2 pos2
    exact decodeHeader_le _ (readBits_lt_two img2 pos2)

/-- C10 witness: the all-black 7×7 buffer (capacity 25 ≥ 16). -/
theorem C10_empty_message_witness :
    WellFormed imgSeven 7 7 ∧ 16 ≤ (7 - 2) * (7 - 2) ∧
      ((∃ img' g', embed_message imgSeven [] gInit = (Except.ok 0, img', g')
        ∧ (extract_message img' gInit).1 = Except.ok (ExtractResult.invalidLength 0))
      ∧ ∀ (img2 : Image) (pos2 : List (Nat × Nat)),
          decodeHeader (readBits img2 pos2) ≤ 65535) :=
  ⟨wf_replicate 7 7 0 (by decide), by decide,
   C10_empty_message imgSeven 7 7 gInit gInit (wf_replicate 7 7 0 (by decide))
     (by decide) (by decide) (by decide)⟩

end Stego
